import Mathlib

unseal Rat.add Rat.sub Rat.mul Rat.inv

/-!
Verification of the Go rule engine and move-selection AI of this repository
(`backend/app/go_board.py`, `backend/app/go_ai.py`, `backend/app/game_manager.py`).

The Python classes are shallowly embedded: the mutable `GoBoard` object becomes
a `GoBoard` structure with each mutating method turned into a state-passing
function, Python `int` cell values (0 empty, 1 black, 2 white) become `Nat`,
Python coordinates (which may go negative in neighbour computations) become
`Int`, Python `set`s become duplicate-free lists built with explicit membership
checks, and Python `float` scores become `ℚ` (all float arithmetic in the
source is dyadic, so this is exact).  The flood-fill `while` loops of the
source are embedded as well-founded recursions whose branch structure mirrors
the Python loop bodies line by line.
-/

namespace GoGame

/-- The four orthogonal direction offsets, in the order the source lists them:
`[(0, 1), (0, -1), (1, 0), (-1, 0)]`. -/
def adjSteps : List (Int × Int) := [(0, 1), (0, -1), (1, 0), (-1, 0)]

/-- One entry of `move_history`: the dict `{x, y, player, captured}` appended by
`place_stone` and `pass_move` (a pass is recorded with `x = y = -1`). -/
structure MoveRecord where
  x : Int
  y : Int
  player : Nat
  captured : Nat
deriving DecidableEq, Repr

/-- The mutable state of the Python `GoBoard` object. -/
structure GoBoard where
  size : Nat
  board : List (List Nat)
  current_player : Nat
  move_history : List MoveRecord
  captured_black : Nat
  captured_white : Nat
  ko_point : Option (Int × Int)
  last_move : Option (Int × Int)
deriving DecidableEq, Repr

/-- `GoBoard.__init__`: fresh board of the given size, black to move. -/
def GoBoard.init (size : Nat) : GoBoard :=
  { size := size
    board := List.replicate size (List.replicate size 0)
    current_player := 1
    move_history := []
    captured_black := 0
    captured_white := 0
    ko_point := none
    last_move := none }

/-- Read `board[y][x]`.  The source only reads cells after an explicit bounds
check, so the out-of-range default `0` is never observable. -/
def getCell (board : List (List Nat)) (x y : Int) : Nat :=
  (board.getD y.toNat []).getD x.toNat 0

/-- Write `board[y][x] = v` (the source always writes in bounds). -/
def setCell (board : List (List Nat)) (x y : Int) (v : Nat) : List (List Nat) :=
  board.set y.toNat ((board.getD y.toNat []).set x.toNat v)

/-- The bounds check `0 <= x < self.size and 0 <= y < self.size`. -/
def inBounds (size : Nat) (x y : Int) : Bool :=
  0 ≤ x && x < (size : Int) && 0 ≤ y && y < (size : Int)

/-- All in-bounds coordinates in the row-major order of the source's nested
`for y: for x:` loops. -/
def allCells (size : Nat) : List (Int × Int) :=
  (List.range size).flatMap fun (y : Nat) =>
    (List.range size).map fun (x : Nat) => ((x : Int), (y : Int))

theorem mem_allCells {size : Nat} {p : Int × Int} :
    p ∈ allCells size ↔ inBounds size p.1 p.2 = true := by
  obtain ⟨x, y⟩ := p
  constructor
  · intro h
    obtain ⟨b, hb, h2⟩ := List.mem_flatMap.mp h
    obtain ⟨a, ha, h3⟩ := List.mem_map.mp h2
    rw [List.mem_range] at hb ha
    injection h3 with h4 h5
    subst h4
    subst h5
    simp only [inBounds, Bool.and_eq_true, decide_eq_true_eq]
    refine ⟨⟨⟨?_, ?_⟩, ?_⟩, ?_⟩ <;> omega
  · intro h
    simp only [inBounds, Bool.and_eq_true, decide_eq_true_eq] at h
    obtain ⟨⟨⟨hx0, hxs⟩, hy0⟩, hys⟩ := h
    refine List.mem_flatMap.mpr ⟨y.toNat, List.mem_range.mpr (by omega), ?_⟩
    refine List.mem_map.mpr ⟨x.toNat, List.mem_range.mpr (by omega), ?_⟩
    rw [Int.toNat_of_nonneg hx0, Int.toNat_of_nonneg hy0]

/-- If `q` implies `p` pointwise then `filter q` is at most as long as
`filter p`. -/
theorem length_filter_le_of_imp {α : Type} (l : List α) (p q : α → Bool)
    (h : ∀ a, q a = true → p a = true) :
    (l.filter q).length ≤ (l.filter p).length := by
  induction l with
  | nil => simp
  | cons b l ih =>
    by_cases hq : q b = true
    · simp [List.filter_cons, hq, h b hq, Nat.succ_le_succ ih]
    · simp only [List.filter_cons, Bool.not_eq_true] at hq ⊢
      rw [hq]
      cases hp : p b <;> simp [Nat.le_succ_of_le ih, ih]

/-- Strict version: if additionally some member of `l` satisfies `p` but not
`q`, the `filter q` list is strictly shorter. -/
theorem length_filter_lt_of_imp {α : Type} (l : List α) (p q : α → Bool)
    (h : ∀ a, q a = true → p a = true) (a : α) (ha : a ∈ l)
    (hpa : p a = true) (hqa : q a = false) :
    (l.filter q).length < (l.filter p).length := by
  induction l with
  | nil => cases ha
  | cons b l ih =>
    rcases List.mem_cons.mp ha with rfl | hmem
    · have hq : q a = false := hqa
      simp only [List.filter_cons, hq, hpa, cond_true, cond_false]
      exact Nat.lt_succ_of_le (length_filter_le_of_imp l p q h)
    · by_cases hq : q b = true
      · simp [List.filter_cons, hq, h b hq, Nat.succ_lt_succ (ih hmem)]
      · simp only [List.filter_cons, Bool.not_eq_true] at hq ⊢
        rw [hq]
        cases hp : p b <;> simp [ih hmem, Nat.lt_succ_of_lt]

/-- Measure used for the flood-fill terminations: the number of in-bounds cells
not yet collected. -/
def cellsLeft (size : Nat) (group : List (Int × Int)) : Nat :=
  ((allCells size).filter fun p => decide (p ∉ group)).length

theorem cellsLeft_cons_lt {size : Nat} {group : List (Int × Int)} {c : Int × Int}
    (hb : inBounds size c.1 c.2 = true) (hc : c ∉ group) :
    cellsLeft size (c :: group) < cellsLeft size group := by
  refine length_filter_lt_of_imp _ _ _ ?_ c (mem_allCells.mpr hb) (by simpa) (by simp)
  intro a ha
  simp only [decide_eq_true_eq, List.mem_cons, not_or] at ha ⊢
  exact ha.2

theorem cellsLeft_cons_eq {size : Nat} {group : List (Int × Int)} {c : Int × Int}
    (hb : ¬ inBounds size c.1 c.2 = true) :
    cellsLeft size (c :: group) = cellsLeft size group := by
  unfold cellsLeft
  refine congrArg List.length (List.filter_congr ?_)
  intro a ha
  have hac : a ≠ c := by
    rintro rfl
    exact hb (mem_allCells.mp ha)
  simp [hac]

/-- The `while stack:` loop body of `_get_group_at` (`go_board.py`): pop, skip
if already in the group, skip if out of bounds, skip if the wrong colour,
otherwise add to the group and push the unvisited neighbours.  The Python
`group` set is a duplicate-free list; pushing order is irrelevant because the
result is read as a set.  The `fuel` argument makes the `while` loop a
structural recursion; `5 * cellsLeft + stack.length` strictly decreases each
iteration, so the entry point's fuel is never exhausted
(`groupLoop_ge_fuel`-style lemmas below make this precise where needed). -/
def groupLoop (size : Nat) (board : List (List Nat)) (player : Nat) :
    Nat → List (Int × Int) → List (Int × Int) → List (Int × Int)
  | 0, _, group => group
  | _ + 1, [], group => group
  | fuel + 1, c :: stack, group =>
    if c ∈ group then
      groupLoop size board player fuel stack group
    else if inBounds size c.1 c.2 = true then
      if getCell board c.1 c.2 = player then
        groupLoop size board player fuel
          (((adjSteps.map fun d => (c.1 + d.1, c.2 + d.2)).filter
              fun n => decide (n ∉ c :: group)) ++ stack)
          (c :: group)
      else
        groupLoop size board player fuel stack group
    else
      groupLoop size board player fuel stack group

/-- Fuel sufficient for a group flood fill started on one cell. -/
def groupFuel (size : Nat) : Nat := 5 * (size * size) + 1

/-- `_get_group_at(board, x, y, player)`: empty set when the start cell does not
hold the player's colour, otherwise the flood fill from the start. -/
def get_group_at (size : Nat) (board : List (List Nat)) (x y : Int) (player : Nat) :
    List (Int × Int) :=
  if getCell board x y ≠ player then []
  else groupLoop size board player (groupFuel size) [(x, y)] []

/-- `_group_has_liberty(board, group, player)`: some member of the group has an
in-bounds empty orthogonal neighbour (the `player` argument is unused in the
source as well). -/
def group_has_liberty (size : Nat) (board : List (List Nat))
    (group : List (Int × Int)) (player : Nat) : Bool :=
  group.any fun g => adjSteps.any fun d =>
    inBounds size (g.1 + d.1) (g.2 + d.2) &&
      decide (getCell board (g.1 + d.1) (g.2 + d.2) = 0)

/-- `_group_has_liberty_excluding(board, group, player, exclude_x, exclude_y)`:
as `group_has_liberty`, but the excluded coordinate never counts as a liberty. -/
def group_has_liberty_excluding (size : Nat) (board : List (List Nat))
    (group : List (Int × Int)) (player : Nat) (exclude_x exclude_y : Int) : Bool :=
  group.any fun g => adjSteps.any fun d =>
    if (g.1 + d.1, g.2 + d.2) = (exclude_x, exclude_y) then false
    else
      inBounds size (g.1 + d.1) (g.2 + d.2) &&
        decide (getCell board (g.1 + d.1) (g.2 + d.2) = 0)

/-- `_has_any_liberty(board, x, y, player)`. -/
def has_any_liberty (size : Nat) (board : List (List Nat)) (x y : Int) (player : Nat) :
    Bool :=
  group_has_liberty size board (get_group_at size board x y player) player

/-- `_can_capture_anything(board, x, y, opponent)`: some orthogonal neighbour of
`(x, y)` holds an opponent stone whose group has no liberty once `(x, y)` is
excluded. -/
def can_capture_anything (size : Nat) (board : List (List Nat)) (x y : Int)
    (opponent : Nat) : Bool :=
  adjSteps.any fun d =>
    if inBounds size (x + d.1) (y + d.2) then
      if getCell board (x + d.1) (y + d.2) = opponent then
        ! group_has_liberty_excluding size board
            (get_group_at size board (x + d.1) (y + d.2) opponent) opponent x y
      else false
    else false

/-- `_count_liberties_of_group(board, group)`: the number of distinct empty
in-bounds cells adjacent to the group (the source collects them in a set). -/
def count_liberties_of_group (size : Nat) (board : List (List Nat))
    (group : List (Int × Int)) : Nat :=
  ((group.flatMap fun g => adjSteps.filterMap fun d =>
      if inBounds size (g.1 + d.1) (g.2 + d.2) &&
          decide (getCell board (g.1 + d.1) (g.2 + d.2) = 0) then
        some (g.1 + d.1, g.2 + d.2)
      else none).dedup).length

/-- `is_valid_move(x, y)`: bounds check, emptiness check, ko check, then the
capture-or-own-liberty test on a temporary board holding the new stone. -/
def is_valid_move (s : GoBoard) (x y : Int) : Bool :=
  if ¬ inBounds s.size x y = true then false
  else if getCell s.board x y ≠ 0 then false
  else if (match s.ko_point with
           | some k => decide ((x, y) = k)
           | none => false) = true then false
  else
    let temp_board := setCell s.board x y s.current_player
    let opponent := 3 - s.current_player
    let can_capture := can_capture_anything s.size temp_board x y opponent
    if ¬ can_capture = true then
      if ¬ has_any_liberty s.size temp_board x y s.current_player = true then false
      else true
    else true

/-- Boolean set equality of two lists, used to model the source's
`frozenset(group) in checked_groups` test. -/
def listSetEq (g h : List (Int × Int)) : Bool :=
  g.all (fun a => decide (a ∈ h)) && h.all (fun a => decide (a ∈ g))

/-- The direction scan of `_find_and_capture_stones`: accumulate the captured
set (`all_captured`) and the groups already checked (`checked_groups`).  The
debug `print` statements of the source are pure logging and are not modelled. -/
def captureScanStep (size : Nat) (board : List (List Nat)) (x y : Int) (opponent : Nat)
    (acc : List (Int × Int) × List (List (Int × Int))) (d : Int × Int) :
    List (Int × Int) × List (List (Int × Int)) :=
  let nx := x + d.1
  let ny := y + d.2
  if ¬ inBounds size nx ny = true then acc
  else if getCell board nx ny ≠ opponent then acc
  else if (nx, ny) ∈ acc.1 then acc
  else
    let opponent_group := get_group_at size board nx ny opponent
    if acc.2.any fun g => listSetEq g opponent_group then acc
    else
      let checked := opponent_group :: acc.2
      if group_has_liberty_excluding size board opponent_group opponent x y then
        (acc.1, checked)
      else
        (acc.1 ++ opponent_group.filter fun p => decide (p ∉ acc.1), checked)

/-- `_find_and_capture_stones(x, y, opponent)`: returns the captured set and the
board with the captured stones removed (the source mutates `self.board`). -/
def find_and_capture_stones (size : Nat) (board : List (List Nat)) (x y : Int)
    (opponent : Nat) : List (Int × Int) × List (List Nat) :=
  let all_captured := (adjSteps.foldl (captureScanStep size board x y opponent) ([], [])).1
  (all_captured, all_captured.foldl (fun b p => setCell b p.1 p.2 0) board)

/-- `place_stone(x, y)`: on an invalid move return the failure outcome with the
state untouched; otherwise write the stone, capture, update the capture
counters and the ko point, append the history entry and toggle the player. -/
def place_stone (s : GoBoard) (x y : Int) : (Bool × String) × GoBoard :=
  if ¬ is_valid_move s x y = true then ((false, "无效的落子位置"), s)
  else
    let board1 := setCell s.board x y s.current_player
    let opponent := 3 - s.current_player
    let fc := find_and_capture_stones s.size board1 x y opponent
    let captured := fc.1
    let board2 := fc.2
    let cb :=
      if captured ≠ [] ∧ s.current_player = 1 then s.captured_black + captured.length
      else s.captured_black
    let cw :=
      if captured ≠ [] ∧ s.current_player ≠ 1 then s.captured_white + captured.length
      else s.captured_white
    let ko : Option (Int × Int) :=
      if captured ≠ [] then
        if captured.length = 1 then
          let my_group := get_group_at s.size board2 x y s.current_player
          if count_liberties_of_group s.size board2 my_group = 1 then captured.head?
          else none
        else none
      else none
    ((true, "落子成功，提子" ++ toString captured.length ++ "颗"),
      { s with
        board := board2
        captured_black := cb
        captured_white := cw
        ko_point := ko
        move_history := s.move_history ++ [⟨x, y, s.current_player, captured.length⟩]
        last_move := some (x, y)
        current_player := opponent })

/-- `pass_move()`: append a pass entry, toggle the player, clear the ko point. -/
def pass_move (s : GoBoard) : GoBoard :=
  { s with
    move_history := s.move_history ++ [⟨-1, -1, s.current_player, 0⟩]
    current_player := 3 - s.current_player
    ko_point := none }

/-- `get_valid_moves()`: row-major scan collecting the cells where
`is_valid_move` holds. -/
def get_valid_moves (s : GoBoard) : List (Int × Int) :=
  (List.range s.size).flatMap fun (y : Nat) =>
    (List.range s.size).filterMap fun (x : Nat) =>
      if is_valid_move s (x : Int) (y : Int) then some ((x : Int), (y : Int)) else none

/-- `is_game_over()`: at least two history entries and the last two are passes
(`x == -1`). -/
def is_game_over (s : GoBoard) : Bool :=
  match s.move_history.reverse with
  | a :: b :: _ => decide (a.x = -1) && decide (b.x = -1)
  | _ => false

/-- Coordinates in the band `[-1, size] × [-1, size]`.  Every coordinate the
territory flood fill can ever push is in this band, which bounds its
`visited` set and yields termination. -/
def extCells (size : Nat) : List (Int × Int) :=
  (List.range (size + 2)).flatMap fun (y : Nat) =>
    (List.range (size + 2)).map fun (x : Nat) => ((x : Int) - 1, (y : Int) - 1)

theorem mem_extCells {size : Nat} {p : Int × Int} :
    p ∈ extCells size ↔ -1 ≤ p.1 ∧ p.1 ≤ size ∧ -1 ≤ p.2 ∧ p.2 ≤ size := by
  obtain ⟨x, y⟩ := p
  constructor
  · intro h
    obtain ⟨b, hb, h2⟩ := List.mem_flatMap.mp h
    obtain ⟨a, ha, h3⟩ := List.mem_map.mp h2
    rw [List.mem_range] at hb ha
    injection h3 with h4 h5
    refine ⟨?_, ?_, ?_, ?_⟩ <;> omega
  · rintro ⟨hx0, hxs, hy0, hys⟩
    refine List.mem_flatMap.mpr ⟨(y + 1).toNat, List.mem_range.mpr (by omega), ?_⟩
    refine List.mem_map.mpr ⟨(x + 1).toNat, List.mem_range.mpr (by omega), ?_⟩
    refine Prod.ext ?_ ?_ <;> simp <;> omega

theorem inBounds_mem_extCells {size : Nat} {p : Int × Int}
    (h : inBounds size p.1 p.2 = true) : p ∈ extCells size := by
  simp only [inBounds, Bool.and_eq_true, decide_eq_true_eq] at h
  exact mem_extCells.mpr ⟨by omega, by omega, by omega, by omega⟩

/-- Measure for the territory flood fill: band coordinates not yet visited. -/
def extLeft (size : Nat) (visited : List (Int × Int)) : Nat :=
  ((extCells size).filter fun p => decide (p ∉ visited)).length

theorem extLeft_cons_lt {size : Nat} {visited : List (Int × Int)} {c : Int × Int}
    (hc : c ∈ extCells size) (hv : c ∉ visited) :
    extLeft size (c :: visited) < extLeft size visited := by
  refine length_filter_lt_of_imp _ _ _ ?_ c hc (by simpa) (by simp)
  intro a ha
  simp only [decide_eq_true_eq, List.mem_cons, not_or] at ha ⊢
  exact ha.2

theorem extLeft_cons_eq {size : Nat} {visited : List (Int × Int)} {c : Int × Int}
    (hc : c ∉ extCells size) :
    extLeft size (c :: visited) = extLeft size visited := by
  unfold extLeft
  refine congrArg List.length (List.filter_congr ?_)
  intro a ha
  have hac : a ≠ c := by
    rintro rfl
    exact hc ha
  simp [hac]

/-- The `while stack:` loop of `_get_territory_owner`: pop, skip if visited,
mark visited, skip if out of bounds, set the `touches` flag on a stone,
otherwise push the four neighbours.  The `empty_region` set of the source is
collected but never read, so it is not carried.  `fuel` embeds the `while`
loop structurally; `5 * extLeft + stack.length` strictly decreases, so the
entry fuel is never exhausted. -/
def territoryLoop (size : Nat) (board : List (List Nat)) :
    Nat → List (Int × Int) → List (Int × Int) → Bool → Bool → Bool × Bool
  | 0, _, _, tb, tw => (tb, tw)
  | _ + 1, [], _, tb, tw => (tb, tw)
  | fuel + 1, c :: stack, visited, tb, tw =>
    if c ∈ visited then
      territoryLoop size board fuel stack visited tb tw
    else
      if inBounds size c.1 c.2 = true then
        if getCell board c.1 c.2 = 1 then
          territoryLoop size board fuel stack (c :: visited) true tw
        else if getCell board c.1 c.2 = 2 then
          territoryLoop size board fuel stack (c :: visited) tb true
        else
          territoryLoop size board fuel
            ((adjSteps.map fun d => (c.1 + d.1, c.2 + d.2)) ++ stack) (c :: visited) tb tw
      else
        territoryLoop size board fuel stack (c :: visited) tb tw

/-- Fuel sufficient for a territory flood fill started on one cell. -/
def territoryFuel (size : Nat) : Nat := 5 * ((size + 2) * (size + 2)) + 1

/-- `_get_territory_owner(x, y)`: `0` on a stone; otherwise flood-fill the
empty region and return `1`/`2` when it touches only black/only white. -/
def get_territory_owner (s : GoBoard) (x y : Int) : Nat :=
  if getCell s.board x y ≠ 0 then 0
  else
    let tbw := territoryLoop s.size s.board (territoryFuel s.size) [(x, y)] [] false false
    if tbw.1 && ! tbw.2 then 1
    else if tbw.2 && ! tbw.1 then 2
    else 0

/-- One cell's contribution in the `get_score` scan. -/
def scoreStep (s : GoBoard) (acc : ℚ × ℚ) (p : Int × Int) : ℚ × ℚ :=
  if getCell s.board p.1 p.2 = 1 then (acc.1 + 1, acc.2)
  else if getCell s.board p.1 p.2 = 2 then (acc.1, acc.2 + 1)
  else
    if get_territory_owner s p.1 p.2 = 1 then (acc.1 + 1, acc.2)
    else if get_territory_owner s p.1 p.2 = 2 then (acc.1, acc.2 + 1)
    else acc

/-- `get_score()`: start from the capture counters (komi 6.5 for white) and add
one point per stone on the board and per owned empty cell, scanning in
row-major order. -/
def get_score (s : GoBoard) : ℚ × ℚ :=
  (allCells s.size).foldl (scoreStep s)
    ((s.captured_black : ℚ), (s.captured_white : ℚ) + 13 / 2)

/-! ## The move-selection AI (`go_ai.py`)

`AdvancedAI.__init__` stores the board reference, the colours and the
difficulty, and snapshots `move_count = len(board.move_history)` and
`game_phase = self._determine_game_phase()` at construction time.  The board
reference is passed explicitly to each evaluation function (the Python methods
read `self.board` live), while `move_count`/`game_phase` live in the AI record.
Calls to `random.random()` / `random.choice` are modelled by explicit
parameters (`r0`, `choice`, `jitter`), since the claims under verification do
not depend on the sampled values. -/

/-- The diagonal offsets checked by `_makes_bad_shape`. -/
def diagSteps : List (Int × Int) := [(1, 1), (1, -1), (-1, 1), (-1, -1)]

/-- Offsets `-d .. d` used by the box scans of the AI. -/
def boxOffsets (d : Nat) : List Int :=
  (List.range (2 * d + 1)).map fun (i : Nat) => (i : Int) - (d : Int)

instance {α β : Type} [DecidableEq α] [DecidableEq β] : DecidableEq (Except α β) :=
  fun a b =>
  match a, b with
  | .error e, .error f =>
    decidable_of_iff (e = f) ⟨fun h => by rw [h], fun h => by injection h⟩
  | .error _, .ok _ => isFalse fun h => Except.noConfusion h
  | .ok _, .error _ => isFalse fun h => Except.noConfusion h
  | .ok a, .ok b =>
    decidable_of_iff (a = b) ⟨fun h => by rw [h], fun h => by injection h⟩

/-- The record part of the Python `AdvancedAI` object (without the live board
reference, which is passed explicitly). -/
structure AdvancedAI where
  player : Nat
  opponent : Nat
  difficulty : String
  move_count : Nat
  game_phase : String
deriving DecidableEq, Repr

/-- `_determine_game_phase` as a pure function of the stored move count. -/
def determine_game_phase (move_count : Nat) : String :=
  if move_count < 40 then "opening"
  else if move_count < 120 then "middlegame"
  else "endgame"

/-- `AdvancedAI.__init__(board, player, difficulty)`: snapshots the move count
and the game phase from the board as it is at construction time. -/
def mkAdvancedAI (board : GoBoard) (player : Nat) (difficulty : String) : AdvancedAI :=
  { player := player
    opponent := 3 - player
    difficulty := difficulty
    move_count := board.move_history.length
    game_phase := determine_game_phase board.move_history.length }

/-- The `while stack:` loop shared by `_get_group_board` and `_get_group`:
marks every popped cell visited, collects in-bounds same-colour cells and
pushes their neighbours. -/
def aiGroupLoop (size : Nat) (board : List (List Nat)) (player : Nat) :
    Nat → List (Int × Int) → List (Int × Int) → List (Int × Int) → List (Int × Int)
  | 0, _, _, group => group
  | _ + 1, [], _, group => group
  | fuel + 1, c :: stack, visited, group =>
    if c ∈ visited then
      aiGroupLoop size board player fuel stack visited group
    else
      if inBounds size c.1 c.2 = true then
        if getCell board c.1 c.2 = player then
          aiGroupLoop size board player fuel
            ((adjSteps.map fun d => (c.1 + d.1, c.2 + d.2)) ++ stack) (c :: visited)
            (group ++ [c])
        else
          aiGroupLoop size board player fuel stack (c :: visited) group
      else
        aiGroupLoop size board player fuel stack (c :: visited) group

/-- `_get_group_board(board, x, y, player)`. -/
def get_group_board (size : Nat) (board : List (List Nat)) (x y : Int) (player : Nat) :
    List (Int × Int) :=
  aiGroupLoop size board player (territoryFuel size) [(x, y)] [] []

/-- `_has_liberty_board(board, x, y, player)`. -/
def has_liberty_board (size : Nat) (board : List (List Nat)) (x y : Int) (player : Nat) :
    Bool :=
  (get_group_board size board x y player).any fun g => adjSteps.any fun d =>
    inBounds size (g.1 + d.1) (g.2 + d.2) &&
      decide (getCell board (g.1 + d.1) (g.2 + d.2) = 0)

/-- `_get_group(x, y, player)`: the same loop on the live board. -/
def get_group (s : GoBoard) (x y : Int) (player : Nat) : List (Int × Int) :=
  aiGroupLoop s.size s.board player (territoryFuel s.size) [(x, y)] [] []

/-- `_count_group_liberties_board(x, y, player)`: distinct liberties of the
live-board group. -/
def count_group_liberties_board (s : GoBoard) (x y : Int) (player : Nat) : Nat :=
  (((get_group s x y player).flatMap fun g => adjSteps.filterMap fun d =>
      if inBounds s.size (g.1 + d.1) (g.2 + d.2) &&
          decide (getCell s.board (g.1 + d.1) (g.2 + d.2) = 0) then
        some (g.1 + d.1, g.2 + d.2)
      else none).dedup).length

/-- `_can_capture_stones(x, y)`: place the AI's stone on a copied board and
collect (with multiplicity, as the source extends a plain list) the adjacent
opponent groups left without liberties. -/
def can_capture_stones (s : GoBoard) (player : Nat) (x y : Int) : Bool × Nat :=
  let temp_board := setCell s.board x y player
  let opponent := 3 - player
  let captured := adjSteps.foldl (fun (acc : List (Int × Int)) d =>
    if inBounds s.size (x + d.1) (y + d.2) &&
        decide (getCell temp_board (x + d.1) (y + d.2) = opponent) then
      if has_liberty_board s.size temp_board (x + d.1) (y + d.2) opponent then acc
      else acc ++ get_group_board s.size temp_board (x + d.1) (y + d.2) opponent
    else acc) []
  (captured.length > 0, captured.length)

/-- `_can_save_stones(x, y)`: total size (with multiplicity) of the adjacent
friendly groups that currently have exactly one liberty. -/
def can_save_stones (s : GoBoard) (player : Nat) (x y : Int) : Bool × Nat :=
  let saved := adjSteps.foldl (fun (acc : Nat) d =>
    if inBounds s.size (x + d.1) (y + d.2) &&
        decide (getCell s.board (x + d.1) (y + d.2) = player) then
      if count_group_liberties_board s (x + d.1) (y + d.2) player = 1 then
        acc + (get_group s (x + d.1) (y + d.2) player).length
      else acc
    else acc) 0
  (saved > 0, saved)

/-- `_will_be_captured(x, y)`: after placing, the own group has no liberty and
no adjacent opponent group is captured in compensation. -/
def will_be_captured (s : GoBoard) (player : Nat) (x y : Int) : Bool :=
  let temp_board := setCell s.board x y player
  if ! has_liberty_board s.size temp_board x y player then
    let opponent := 3 - player
    let captured := adjSteps.foldl (fun (acc : Nat) d =>
      if inBounds s.size (x + d.1) (y + d.2) &&
          decide (getCell temp_board (x + d.1) (y + d.2) = opponent) then
        if has_liberty_board s.size temp_board (x + d.1) (y + d.2) opponent then acc
        else acc + 1
      else acc) 0
    captured = 0
  else false

/-- `_can_cut(x, y)`: at least two adjacent opponent stones lying in at least
two distinct groups. -/
def can_cut (s : GoBoard) (opponent : Nat) (x y : Int) : Bool :=
  let enemy_neighbors := adjSteps.filterMap fun d =>
    if inBounds s.size (x + d.1) (y + d.2) &&
        decide (getCell s.board (x + d.1) (y + d.2) = opponent) then
      some (x + d.1, y + d.2)
    else none
  if enemy_neighbors.length ≥ 2 then
    let groups := enemy_neighbors.foldl (fun (gs : List (List (Int × Int))) n =>
      let g := get_group s n.1 n.2 opponent
      if gs.any fun h => listSetEq h g then gs else g :: gs) []
    groups.length ≥ 2
  else false

/-- `_can_connect(x, y)`: at least two orthogonal friendly neighbours. -/
def can_connect (s : GoBoard) (player : Nat) (x y : Int) : Bool :=
  2 ≤ (adjSteps.filter fun d =>
    inBounds s.size (x + d.1) (y + d.2) &&
      decide (getCell s.board (x + d.1) (y + d.2) = player)).length

/-- `_is_ladder(x, y)`: a documented stub that is always false. -/
def is_ladder (_s : GoBoard) (_x _y : Int) : Bool := false

/-- `_is_corner_star(x, y)`. -/
def is_corner_star (s : GoBoard) (x y : Int) : Bool :=
  if s.size = 19 then
    (x, y) ∈ ([(3, 3), (3, 15), (15, 3), (15, 15)] : List (Int × Int))
  else if s.size = 13 then
    (x, y) ∈ ([(3, 3), (3, 9), (9, 3), (9, 9)] : List (Int × Int))
  else false

/-- `_is_side_star(x, y)`. -/
def is_side_star (s : GoBoard) (x y : Int) : Bool :=
  if s.size = 19 then
    (x, y) ∈ ([(9, 3), (9, 15), (3, 9), (15, 9)] : List (Int × Int))
  else if s.size = 13 then
    (x, y) ∈ ([(6, 3), (6, 9), (3, 6), (9, 6)] : List (Int × Int))
  else false

/-- `_is_good_opening_point(x, y)`. -/
def is_good_opening_point (s : GoBoard) (x y : Int) : Bool :=
  if s.size = 19 then
    (x, y) ∈ ([(2, 3), (3, 2), (2, 15), (15, 2), (16, 3), (3, 16), (16, 15), (15, 16)] :
      List (Int × Int))
  else false

/-- `_near_enemy_stones(x, y, distance)`: an opponent stone in the
`(2·distance+1)²` box around the point. -/
def near_enemy_stones (s : GoBoard) (opponent : Nat) (x y : Int) (distance : Nat) : Bool :=
  (boxOffsets distance).any fun dx => (boxOffsets distance).any fun dy =>
    inBounds s.size (x + dx) (y + dy) &&
      decide (getCell s.board (x + dx) (y + dy) = opponent)

/-- `_makes_good_shape(x, y)`: at least two orthogonal friendly neighbours. -/
def makes_good_shape (s : GoBoard) (player : Nat) (x y : Int) : Bool :=
  2 ≤ (adjSteps.filter fun d =>
    inBounds s.size (x + d.1) (y + d.2) &&
      decide (getCell s.board (x + d.1) (y + d.2) = player)).length

/-- `_makes_bad_shape(x, y)`: exactly two orthogonal friendly neighbours plus a
diagonal friendly neighbour (empty triangle). -/
def makes_bad_shape (s : GoBoard) (player : Nat) (x y : Int) : Bool :=
  let friendly_count := (adjSteps.filter fun d =>
    inBounds s.size (x + d.1) (y + d.2) &&
      decide (getCell s.board (x + d.1) (y + d.2) = player)).length
  let diagonal_count := (diagSteps.filter fun d =>
    inBounds s.size (x + d.1) (y + d.2) &&
      decide (getCell s.board (x + d.1) (y + d.2) = player)).length
  friendly_count = 2 && diagonal_count ≥ 1

/-- `_calculate_efficiency(x, y)`: weighted neighbourhood density over the
boxes of radius 1–3 (own stones weight 1, enemy stones weight ½, divided by
the radius). -/
def calculate_efficiency (s : GoBoard) (player opponent : Nat) (x y : Int) : ℚ :=
  ([1, 2, 3] : List Nat).foldl (fun (acc : ℚ) r =>
    let influence_count := (boxOffsets r).foldl (fun (c : ℚ) dx =>
      (boxOffsets r).foldl (fun (c2 : ℚ) dy =>
        if inBounds s.size (x + dx) (y + dy) then
          if getCell s.board (x + dx) (y + dy) = player then c2 + 1
          else if getCell s.board (x + dx) (y + dy) = opponent then c2 + 1 / 2
          else c2
        else c2) c) 0
    acc + influence_count / (r : ℚ)) 0

/-- `_calculate_thickness(x, y)`: distance-decayed friendly density over the
`±3` window (Chebyshev distance). -/
def calculate_thickness (s : GoBoard) (player : Nat) (x y : Int) : ℚ :=
  (boxOffsets 3).foldl (fun (acc : ℚ) dx =>
    (boxOffsets 3).foldl (fun (acc2 : ℚ) dy =>
      if dx = 0 ∧ dy = 0 then acc2
      else if inBounds s.size (x + dx) (y + dy) &&
          decide (getCell s.board (x + dx) (y + dy) = player) then
        acc2 + (4 - (max dx.natAbs dy.natAbs : ℚ)) / 2
      else acc2) acc) 0

/-- `_keeps_initiative(x, y)`: enemy stone within distance 1. -/
def keeps_initiative (s : GoBoard) (opponent : Nat) (x y : Int) : Bool :=
  near_enemy_stones s opponent x y 1

/-- The `while stack and len(checked) < 20:` loop of
`_estimate_territory_control`. -/
def estLoop (size : Nat) (board : List (List Nat)) :
    Nat → List (Int × Int) → List (Int × Int) → ℚ → ℚ
  | 0, _, _, t => t
  | _ + 1, [], _, t => t
  | fuel + 1, c :: stack, checked, t =>
    if ¬ checked.length < 20 then t
    else if c ∈ checked then
      estLoop size board fuel stack checked t
    else
      if inBounds size c.1 c.2 = true then
        if getCell board c.1 c.2 = 0 then
          estLoop size board fuel ((adjSteps.map fun d => (c.1 + d.1, c.2 + d.2)) ++ stack)
            (c :: checked) (t + 1)
        else
          estLoop size board fuel stack (c :: checked) t
      else
        estLoop size board fuel stack (c :: checked) t

/-- `_estimate_territory_control(x, y)`: bounded flood fill counting reachable
empty cells (the `checked` cap of 20 bounds the loop; fuel 101 dominates
`5 * (20 - checked) + stack.length`). -/
def estimate_territory_control (s : GoBoard) (x y : Int) : ℚ :=
  estLoop s.size s.board 101 [(x, y)] [] 0

/-- `_count_endgame_value(x, y)`: base 5, +5 near the edge, +3 per orthogonal
friendly neighbour. -/
def count_endgame_value (s : GoBoard) (player : Nat) (x y : Int) : ℚ :=
  let value : ℚ := 5
  let edge_dist := min (min x y) (min ((s.size : Int) - 1 - x) ((s.size : Int) - 1 - y))
  let value := if edge_dist ≤ 2 then value + 5 else value
  adjSteps.foldl (fun (v : ℚ) d =>
    if inBounds s.size (x + d.1) (y + d.2) &&
        decide (getCell s.board (x + d.1) (y + d.2) = player) then v + 3
    else v) value

/-- `_evaluate_tactical(x, y)`: capture, rescue, self-capture, cut, connect and
ladder terms with their reason strings. -/
def evaluate_tactical (ai : AdvancedAI) (s : GoBoard) (x y : Int) : ℚ × String :=
  let cc := can_capture_stones s ai.player x y
  let sc1 : ℚ := if cc.1 then 30 + (cc.2 : ℚ) * 5 else 0
  let r1 : List String := if cc.1 then ["可提吃" ++ toString cc.2 ++ "子"] else []
  let cs := can_save_stones s ai.player x y
  let sc2 : ℚ := if cs.1 then sc1 + 25 + (cs.2 : ℚ) * 3 else sc1
  let r2 := if cs.1 then r1 ++ ["救回" ++ toString cs.2 ++ "子"] else r1
  let wb := will_be_captured s ai.player x y
  let sc3 : ℚ := if wb then sc2 - 50 else sc2
  let r3 := if wb then r2 ++ ["会被提吃"] else r2
  let cut := can_cut s ai.opponent x y
  let sc4 : ℚ := if cut then sc3 + 20 else sc3
  let r4 := if cut then r3 ++ ["切断对方"] else r3
  let con := can_connect s ai.player x y
  let sc5 : ℚ := if con then sc4 + 15 else sc4
  let r5 := if con then r4 ++ ["连接己方"] else r4
  let lad := is_ladder s x y
  let sc6 : ℚ := if lad then sc5 - 30 else sc5
  let r6 := if lad then r5 ++ ["会被征吃"] else r5
  (sc6, String.intercalate "、" r6)

/-- `_evaluate_position_advanced(x, y)`: phase-dependent positional scoring;
the phase consulted is the one stored in the AI record at construction. -/
def evaluate_position_advanced (ai : AdvancedAI) (s : GoBoard) (x y : Int) : ℚ × String :=
  if ai.game_phase = "opening" then
    if is_corner_star s x y then (25, "占据星位")
    else if is_side_star s x y then (20, "边星位")
    else if is_good_opening_point s x y then (18, "好点")
    else
      let line := min (min x y) (min ((s.size : Int) - 1 - x) ((s.size : Int) - 1 - y))
      if 2 ≤ line ∧ line ≤ 4 then (12, "第三、四线")
      else if 4 < line then (-5, "")
      else (0, "")
  else if ai.game_phase = "middlegame" then
    let center_dist := (x - (s.size : Int) / 2).natAbs + (y - (s.size : Int) / 2).natAbs
    let sc : ℚ := max 0 (15 - (center_dist : ℚ) * (1 / 2))
    if near_enemy_stones s ai.opponent x y 2 then (sc + 15, "接近战斗")
    else (sc, "")
  else if ai.game_phase = "endgame" then
    let territory_value := count_endgame_value s ai.player x y
    if 10 < territory_value then (territory_value, "官子价值" ++ toString territory_value ++ "目")
    else (territory_value, "")
  else (0, "")

/-- `_evaluate_shape(x, y)`: good shape, bad shape, then the efficiency term.
When `efficiency > 12` the source formats the undefined name `effiveness`
(`go_ai.py` line 222), which raises `NameError` at run time; this is embedded
as an `Except.error`. -/
def evaluate_shape (ai : AdvancedAI) (s : GoBoard) (x y : Int) : Except String (ℚ × String) :=
  if makes_good_shape s ai.player x y then .ok (15, "好形")
  else if makes_bad_shape s ai.player x y then .ok (-15, "愚形(避免)")
  else
    let efficiency := calculate_efficiency s ai.player ai.opponent x y
    if 12 < efficiency then .error "NameError: name effiveness is not defined"
    else .ok (efficiency, "")

/-- `_evaluate_influence(x, y)`: thickness plus the initiative bonus (the
source returns `score + thickness`, counting the thickness twice on that
branch). -/
def evaluate_influence (ai : AdvancedAI) (s : GoBoard) (x y : Int) : ℚ × String :=
  let thickness := calculate_thickness s ai.player x y
  if keeps_initiative s ai.opponent x y then
    (thickness + 12 + thickness, "保持先手")
  else (thickness, "")

/-- `_evaluate_territory(x, y)`. -/
def evaluate_territory (ai : AdvancedAI) (s : GoBoard) (x y : Int) : ℚ × String :=
  let territory := estimate_territory_control s x y
  (territory, "控制" ++ toString territory ++ "目")

/-- `_evaluate_move_deep(x, y)`: weighted sum of the five heuristics; an error
raised by `_evaluate_shape` propagates (the source has no handler). -/
def evaluate_move_deep (ai : AdvancedAI) (s : GoBoard) (x y : Int) :
    Except String (ℚ × String) :=
  let t := evaluate_tactical ai s x y
  let p := evaluate_position_advanced ai s x y
  match evaluate_shape ai s x y with
  | .error e => .error e
  | .ok sh =>
    let inf := evaluate_influence ai s x y
    let ter := evaluate_territory ai s x y
    let score := t.1 * (5 / 2) + p.1 * (3 / 2) + sh.1 * (6 / 5) + inf.1 + ter.1
    let reasons : List String :=
      (if 10 < t.1 then [t.2] else []) ++ (if 15 < p.1 then [p.2] else []) ++
      (if 10 < sh.1 then [sh.2] else []) ++ (if 8 < inf.1 then [inf.2] else []) ++
      (if 8 < ter.1 then [ter.2] else [])
    let analysis :=
      if reasons ≠ [] then
        "(" ++ toString (x + 1) ++ "," ++ toString (y + 1) ++ ") " ++
          String.intercalate "、" (reasons.take 3)
      else "(" ++ toString (x + 1) ++ "," ++ toString (y + 1) ++ ") 综合评估"
    .ok (score, analysis)

/-- `_format_explanation(x, y, analyses)`. -/
def format_explanation (x y : Int) (analyses : List String) : String :=
  if analyses = [] then
    "选择 (" ++ toString (x + 1) ++ "," ++ toString (y + 1) ++
      ")：经过综合分析，这是当前最佳选择"
  else
    "选择 (" ++ toString (x + 1) ++ "," ++ toString (y + 1) ++ ")：\n  • " ++
      analyses.headD ""

/-- The candidate loop of `_get_move_advanced`: best score, best move and the
retained analyses; `jitter i` models the `i`-th `random.random()` call. -/
def advLoop (ai : AdvancedAI) (s : GoBoard) (jitter : Nat → ℚ) :
    List (Int × Int) → Nat → Option (ℚ × (Int × Int) × List String) →
    Except String (Option (ℚ × (Int × Int) × List String))
  | [], _, best => .ok best
  | m :: ms, i, best =>
    match evaluate_move_deep ai s m.1 m.2 with
    | .error e => .error e
    | .ok ev =>
      let score := ev.1 + jitter i * (1 / 2)
      match best with
      | none => advLoop ai s jitter ms (i + 1) (some (score, m, [ev.2]))
      | some b =>
        if b.1 < score then advLoop ai s jitter ms (i + 1) (some (score, m, [ev.2]))
        else if b.1 - 2 < score then
          advLoop ai s jitter ms (i + 1) (some (b.1, b.2.1, b.2.2 ++ [ev.2]))
        else advLoop ai s jitter ms (i + 1) (some b)

/-- `_get_move_advanced(valid_moves)`: hard tier.  The `.ok none` case can only
arise from an empty candidate list, which `get_move` rules out (the Python
would fail subscripting `None` there). -/
def get_move_advanced (ai : AdvancedAI) (s : GoBoard) (jitter : Nat → ℚ)
    (valid_moves : List (Int × Int)) : Except String (Int × Int × String) :=
  match advLoop ai s jitter valid_moves 0 none with
  | .error e => .error e
  | .ok none => .error "TypeError: NoneType is not subscriptable"
  | .ok (some b) =>
    .ok (b.2.1.1, b.2.1.2, format_explanation b.2.1.1 b.2.1.2 (b.2.2.take 3))

/-- `_get_move_medium(valid_moves)`: simplified greedy scoring. -/
def get_move_medium (ai : AdvancedAI) (s : GoBoard) (jitter : Nat → ℚ)
    (valid_moves : List (Int × Int)) : Int × Int × String :=
  let best := (valid_moves.enum.foldl (fun (best : Option (ℚ × (Int × Int))) mi =>
    let m := mi.2
    let sc0 : ℚ := if (can_capture_stones s ai.player m.1 m.2).1 then 25 else 0
    let sc1 := if (can_save_stones s ai.player m.1 m.2).1 then sc0 + 20 else sc0
    let sc2 := if will_be_captured s ai.player m.1 m.2 then sc1 - 40 else sc1
    let sc3 := if can_cut s ai.opponent m.1 m.2 then sc2 + 15 else sc2
    let sc4 := if can_connect s ai.player m.1 m.2 then sc3 + 12 else sc3
    let sc5 := sc4 + (evaluate_position_advanced ai s m.1 m.2).1 * (4 / 5)
    let score := sc5 + jitter mi.1 * 3
    match best with
    | none => some (score, m)
    | some b => if b.1 < score then some (score, m) else some b) none)
  match best, valid_moves.headD (0, 0) with
  | some b, _ =>
    (b.2.1, b.2.2, "选择 (" ++ toString (b.2.1 + 1) ++ "," ++ toString (b.2.2 + 1) ++
      ")：综合评估后的最佳选择")
  | none, m0 =>
    (m0.1, m0.2, "选择 (" ++ toString (m0.1 + 1) ++ "," ++ toString (m0.2 + 1) ++
      ")：综合评估后的最佳选择")

/-- `_get_move_simple(valid_moves)`: 30% purely random (`r0 < 0.3`, with
`choice` selecting the move), otherwise greedy over capture/rescue/self-atari
plus the opening star bonus. -/
def get_move_simple (ai : AdvancedAI) (s : GoBoard) (r0 : ℚ) (choice : Nat)
    (jitter : Nat → ℚ) (valid_moves : List (Int × Int)) : Int × Int × String :=
  if r0 < 3 / 10 then
    let m := valid_moves.getD (choice % valid_moves.length) (0, 0)
    (m.1, m.2, "选择 (" ++ toString (m.1 + 1) ++ "," ++ toString (m.2 + 1) ++
      ")：尝试这个位置")
  else
    let best := (valid_moves.enum.foldl (fun (best : Option (ℚ × (Int × Int))) mi =>
      let m := mi.2
      let sc0 : ℚ := if (can_capture_stones s ai.player m.1 m.2).1 then 20 else 0
      let sc1 := if (can_save_stones s ai.player m.1 m.2).1 then sc0 + 15 else sc0
      let sc2 := if will_be_captured s ai.player m.1 m.2 then sc1 - 30 else sc1
      let sc3 :=
        if ai.game_phase = "opening" then
          if is_corner_star s m.1 m.2 || is_side_star s m.1 m.2 then sc2 + 15 else sc2
        else sc2
      let score := sc3 + jitter mi.1 * 5
      match best with
      | none => some (score, m)
      | some b => if b.1 < score then some (score, m) else some b) none)
    match best, valid_moves.headD (0, 0) with
    | some b, _ =>
      (b.2.1, b.2.2, "选择 (" ++ toString (b.2.1 + 1) ++ "," ++ toString (b.2.2 + 1) ++
        ")：这步棋看起来不错")
    | none, m0 =>
      (m0.1, m0.2, "选择 (" ++ toString (m0.1 + 1) ++ "," ++ toString (m0.2 + 1) ++
        ")：这步棋看起来不错")

/-- `AdvancedAI.get_move()`: pass signal on an empty legal set, then dispatch
on the difficulty.  A `NameError` escaping the hard-tier evaluation surfaces
as `.error`, exactly as the exception propagates in the source. -/
def get_move (ai : AdvancedAI) (s : GoBoard) (r0 : ℚ) (choice : Nat) (jitter : Nat → ℚ) :
    Except String (Int × Int × String) :=
  let valid_moves := get_valid_moves s
  if valid_moves = [] then .ok (-1, -1, "没有合法的落子位置，选择虚着")
  else if ai.difficulty = "easy" then
    .ok (get_move_simple ai s r0 choice jitter valid_moves)
  else if ai.difficulty = "hard" then
    get_move_advanced ai s jitter valid_moves
  else
    .ok (get_move_medium ai s jitter valid_moves)

/-! ## Concrete states used by witnesses and counterexamples -/

/-- A 5×5 position with a classic ko shape: black to move, playing (2,1)
captures the single white stone at (1,1) and leaves the new black stone with
exactly one liberty. -/
def koBoard : GoBoard :=
  { size := 4
    board := [[0, 1, 2, 0], [1, 2, 0, 2], [0, 1, 2, 0], [0, 0, 0, 0]]
    current_player := 1
    move_history := []
    captured_black := 0
    captured_white := 0
    ko_point := none
    last_move := none }

/-- The position after black takes the ko: `ko_point = some (1, 1)`. -/
def koTaken : GoBoard := (place_stone koBoard 2 1).2

/-- Iterated `pass_move`, as produced by repeated `pass_turn` calls. -/
def passN : Nat → GoBoard → GoBoard
  | 0, s => s
  | n + 1, s => passN n (pass_move s)

/-- A fresh 2×2 game after two consecutive passes: `is_game_over` holds. -/
def overBoard : GoBoard := passN 2 (GoBoard.init 2)

/-- A 4×4 position, white (the AI) to move, dense enough around the empty
point (1, 1) that `_calculate_efficiency(1, 1) > 12` while (1, 1) has at most
one orthogonal white neighbour — the configuration on which the hard tier
reaches the `effiveness` NameError of `go_ai.py` line 222. -/
def nameErrorBoard : GoBoard :=
  { size := 4
    board := [[2, 0, 2, 2], [0, 0, 0, 2], [2, 0, 2, 2], [2, 2, 2, 2]]
    current_player := 2
    move_history := []
    captured_black := 0
    captured_white := 0
    ko_point := none
    last_move := none }

/-- The AI object `GameManager.create_game` pairs with a fresh 19×19 board:
constructed before any move, hence with `game_phase = "opening"` forever. -/
def aiAtStart : AdvancedAI := mkAdvancedAI (GoBoard.init 19) 2 "hard"

/-- The hard-tier AI paired with `nameErrorBoard`. -/
def nameErrorAI : AdvancedAI := mkAdvancedAI nameErrorBoard 2 "hard"

/-- The 19×19 board after 120 moves (here: 120 passes). -/
def lateBoard : GoBoard := passN 120 (GoBoard.init 19)

/-- A small reachable state: black has played (0, 0) on a fresh 2×2 board. -/
def w8 : GoBoard := (place_stone (GoBoard.init 2) 0 0).2

/-- Number of cells of a given value on the board, as in the source's
`sum(row.count(v) for row in self.board)`. -/
def countCells (board : List (List Nat)) (v : Nat) : Nat :=
  (board.map fun row => row.count v).sum

/-- Well-formedness of a board state: the grid is `size × size`, every cell
value is at most 2, and the player to move is black or white. -/
def WF (s : GoBoard) : Prop :=
  s.board.length = s.size ∧
    (∀ row ∈ s.board, row.length = s.size ∧ ∀ v ∈ row, v ≤ 2) ∧
    (s.current_player = 1 ∨ s.current_player = 2)

/-- Board states reachable from a fresh `n × n` board through the two mutation
entry points. -/
inductive Reachable (n : Nat) : GoBoard → Prop
  | init : Reachable n (GoBoard.init n)
  | place {s : GoBoard} (x y : Int) : Reachable n s → Reachable n (place_stone s x y).2
  | pass {s : GoBoard} : Reachable n s → Reachable n (pass_move s)

/-! ## Declarative connectivity layer

`adjacentP`, `colStep` and `reaches` give the mathematical reading of the
source's flood fills: `reaches size board c p q` holds when `q` lies in the
maximal 4-connected region of cells of value `c` grown from `p`.  With `c = 1`
or `2` this is the stone group of the glossary; with `c = 0` it is the empty
region used for territory. -/

/-- `q` is one of the four orthogonal neighbours of `p`. -/
def adjacentP (p q : Int × Int) : Prop :=
  ∃ d ∈ adjSteps, q = (p.1 + d.1, p.2 + d.2)

/-- One step of flood-fill connectivity into an in-bounds cell of value `c`. -/
def colStep (size : Nat) (board : List (List Nat)) (c : Nat) (p q : Int × Int) : Prop :=
  adjacentP p q ∧ inBounds size q.1 q.2 = true ∧ getCell board q.1 q.2 = c

/-- `q` belongs to the connected region of value `c` grown from `p` (the
start itself is included by reflexivity). -/
def reaches (size : Nat) (board : List (List Nat)) (c : Nat) (p q : Int × Int) : Prop :=
  Relation.ReflTransGen (colStep size board c) p q

/-- Direction `d` from `(x, y)` points at an in-bounds opponent stone whose
group has no liberty besides possibly `(x, y)` itself — exactly the condition
under which the scan of `_find_and_capture_stones` captures that group. -/
def scanCap (size : Nat) (board : List (List Nat)) (x y : Int) (opponent : Nat)
    (d : Int × Int) : Prop :=
  inBounds size (x + d.1) (y + d.2) = true ∧
    getCell board (x + d.1) (y + d.2) = opponent ∧
    group_has_liberty_excluding size board
      (get_group_at size board (x + d.1) (y + d.2) opponent) opponent x y = false

/-- Loop invariant of the direction scan of `_find_and_capture_stones`: after
processing the directions in `ps`, the accumulator's first component holds
exactly the members of the captured groups seen through `ps`, and every
recorded checked group is the group of some processed in-bounds opponent
neighbour. -/
def ScanInv (size : Nat) (board : List (List Nat)) (x y : Int) (opponent : Nat)
    (ps : List (Int × Int)) (acc : List (Int × Int) × List (List (Int × Int))) : Prop :=
  (∀ q, q ∈ acc.1 ↔ ∃ d ∈ ps, scanCap size board x y opponent d ∧
      q ∈ get_group_at size board (x + d.1) (y + d.2) opponent) ∧
  ∀ g ∈ acc.2, ∃ d ∈ ps, inBounds size (x + d.1) (y + d.2) = true ∧
    getCell board (x + d.1) (y + d.2) = opponent ∧
    g = get_group_at size board (x + d.1) (y + d.2) opponent

/-- The maximal connected empty region through `p` borders a stone of colour
`c`: some cell of the region has an in-bounds orthogonal neighbour holding `c`. -/
def bordersColor (size : Nat) (board : List (List Nat)) (p : Int × Int) (c : Nat) : Prop :=
  ∃ q : Int × Int, reaches size board 0 p q ∧ ∃ d ∈ adjSteps,
    inBounds size (q.1 + d.1) (q.2 + d.2) = true ∧
    getCell board (q.1 + d.1) (q.2 + d.2) = c

/-- The per-cell condition under which the `get_score` scan adds a point for
black: a black stone, or an empty cell whose territory owner is black. -/
def blackPoint (s : GoBoard) (p : Int × Int) : Bool :=
  if getCell s.board p.1 p.2 = 1 then true
  else if getCell s.board p.1 p.2 = 2 then false
  else decide (get_territory_owner s p.1 p.2 = 1)

/-- The per-cell condition under which the `get_score` scan adds a point for
white: a white stone, or an empty cell whose territory owner is white. -/
def whitePoint (s : GoBoard) (p : Int × Int) : Bool :=
  if getCell s.board p.1 p.2 = 1 then false
  else if getCell s.board p.1 p.2 = 2 then true
  else decide (get_territory_owner s p.1 p.2 = 2)

/-- Every stone on the board belongs to a group with at least one liberty. -/
def LibertyInv (s : GoBoard) : Prop :=
  ∀ u v : Int, inBounds s.size u v = true → getCell s.board u v ≠ 0 →
    has_any_liberty s.size s.board u v (getCell s.board u v) = true

/-! ## Claim theorems -/

/-- C3: whenever `is_valid_move(x, y)` is false, `place_stone(x, y)` returns
the failure outcome and the entire board state — grid, current player, move
history, capture counters, ko point and last move — is exactly as before the
call: the returned state is the input state, so no partial mutation is
observable. -/
theorem place_stone_invalid_is_noop (s : GoBoard) (x y : Int)
    (h : is_valid_move s x y = false) :
    (place_stone s x y).1.1 = false ∧ (place_stone s x y).2 = s := by
  unfold place_stone
  rw [h]
  simp

theorem place_stone_invalid_is_noop_witness :
    is_valid_move (GoBoard.init 2) 5 0 = false ∧
      (place_stone (GoBoard.init 2) 5 0).1.1 = false ∧
      (place_stone (GoBoard.init 2) 5 0).2 = GoBoard.init 2 := by
  have h : is_valid_move (GoBoard.init 2) 5 0 = false := by
    simp [is_valid_move, inBounds, GoBoard.init]
  exact ⟨h, place_stone_invalid_is_noop (GoBoard.init 2) 5 0 h⟩

/-- C4 counterexample: after two consecutive passes on a fresh 2×2 board,
`is_game_over()` is true, yet `place_stone(0, 0)` succeeds and changes the
board state, and `pass_move()` also goes through and changes the state — the
claimed `GameAlreadyOverError`-style rejection does not exist in `GoBoard`. -/
theorem game_over_guard_missing :
    is_game_over overBoard = true ∧
      (place_stone overBoard 0 0).1.1 = true ∧
      (place_stone overBoard 0 0).2 ≠ overBoard ∧
      pass_move overBoard ≠ overBoard := by
  refine ⟨by decide, by decide, by decide, by decide⟩

/-- C4 amended: `GoBoard` itself applies no game-over guard: even when
`is_game_over()` is true, `place_stone` succeeds exactly when `is_valid_move`
holds, and `pass_move` still appends a pass entry and toggles the player (the
`'游戏已结束'` rejection exists only in `GameManager`, keyed on its own
`game_over` flag). -/
theorem mutation_ignores_game_over (s : GoBoard) (x y : Int)
    (h : is_game_over s = true) :
    (place_stone s x y).1.1 = is_valid_move s x y ∧
      (pass_move s).move_history.length = s.move_history.length + 1 ∧
      (pass_move s).current_player = 3 - s.current_player := by
  refine ⟨?_, by simp [pass_move], by simp [pass_move]⟩
  unfold place_stone
  by_cases hv : is_valid_move s x y = true
  · rw [hv]
    simp
  · rw [Bool.not_eq_true] at hv
    rw [hv]
    simp

theorem mutation_ignores_game_over_witness :
    is_game_over overBoard = true ∧
      ((place_stone overBoard 0 0).1.1 = is_valid_move overBoard 0 0 ∧
        (pass_move overBoard).move_history.length = overBoard.move_history.length + 1 ∧
        (pass_move overBoard).current_player = 3 - overBoard.current_player) := by
  have h : is_game_over overBoard = true := by decide
  exact ⟨h, mutation_ignores_game_over overBoard 0 0 h⟩

/-- C2: the ko point starts out null, every pass clears it, a non-null ko
point forbids the immediately following move at that point, and after any
successful `place_stone` the new ko point is computed afresh from that move
alone: it can be `some p` only when the move captured exactly the single stone
`p` and left the mover's own group (on the post-capture board) with exactly
one liberty.  Together these give the claim: a non-null `ko_point` exists only
immediately after such a single-stone capture, and the next successful move or
pass by either side clears or replaces it. -/
theorem ko_point_lifecycle :
    (∀ n, (GoBoard.init n).ko_point = none) ∧
    (∀ s, (pass_move s).ko_point = none) ∧
    (∀ s x y, s.ko_point = some (x, y) → is_valid_move s x y = false) ∧
    (∀ s x y p, is_valid_move s x y = true →
      (place_stone s x y).2.ko_point = some p →
      (find_and_capture_stones s.size (setCell s.board x y s.current_player) x y
          (3 - s.current_player)).1 = [p] ∧
        count_liberties_of_group s.size
          (find_and_capture_stones s.size (setCell s.board x y s.current_player) x y
            (3 - s.current_player)).2
          (get_group_at s.size
            (find_and_capture_stones s.size (setCell s.board x y s.current_player) x y
              (3 - s.current_player)).2 x y s.current_player) = 1) := by
  refine ⟨fun n => rfl, fun s => rfl, ?_, ?_⟩
  · intro s x y h
    unfold is_valid_move
    rw [h]
    by_cases hb : inBounds s.size x y = true
    · by_cases he : getCell s.board x y = 0 <;> simp [hb, he]
    · simp [hb]
  · intro s x y p hv hko
    unfold place_stone at hko
    rw [hv, if_neg (not_not_intro rfl)] at hko
    simp only at hko
    split at hko
    · split at hko
      · split at hko
        · rename_i hne hlen hcnt
          rcases hcap : (find_and_capture_stones s.size
              (setCell s.board x y s.current_player) x y (3 - s.current_player)).1 with
            _ | ⟨c, t⟩
          · rw [hcap] at hne
            exact absurd rfl hne
          · rw [hcap] at hlen hko
            cases t with
            | nil =>
              simp only [List.head?] at hko
              injection hko with hcp
              subst hcp
              exact ⟨rfl, hcnt⟩
            | cons c2 t2 => simp at hlen
        · exact absurd hko (by simp)
      · exact absurd hko (by simp)
    · exact absurd hko (by simp)

theorem ko_point_lifecycle_witness :
    is_valid_move koTaken 1 1 = false ∧
      (find_and_capture_stones koBoard.size
          (setCell koBoard.board 2 1 koBoard.current_player) 2 1
          (3 - koBoard.current_player)).1 = [(1, 1)] ∧
        count_liberties_of_group koBoard.size
          (find_and_capture_stones koBoard.size
            (setCell koBoard.board 2 1 koBoard.current_player) 2 1
            (3 - koBoard.current_player)).2
          (get_group_at koBoard.size
            (find_and_capture_stones koBoard.size
              (setCell koBoard.board 2 1 koBoard.current_player) 2 1
              (3 - koBoard.current_player)).2 2 1 koBoard.current_player) = 1 := by
  have hv : is_valid_move koBoard 2 1 = true := by decide
  have hko : (place_stone koBoard 2 1).2.ko_point = some (1, 1) := by decide
  have hkz : koTaken.ko_point = some (1, 1) := by decide
  exact ⟨ko_point_lifecycle.2.2.1 koTaken 1 1 hkz,
    ko_point_lifecycle.2.2.2 koBoard 2 1 (1, 1) hv hko⟩

theorem filterMap_if_eq_filter_map (l : List Nat) (f : Nat → Int × Int)
    (P : Int × Int → Bool) :
    (l.filterMap fun a => if P (f a) then some (f a) else none) = (l.map f).filter P := by
  induction l with
  | nil => rfl
  | cons a l ih =>
    simp only [List.filterMap_cons, List.map_cons, List.filter_cons]
    cases h : P (f a) <;> simp [h, ih]

theorem filter_flatMap_comm (l : List Nat) (g : Nat → List (Int × Int))
    (P : Int × Int → Bool) :
    (l.flatMap g).filter P = l.flatMap fun a => (g a).filter P := by
  induction l with
  | nil => rfl
  | cons a l ih => simp [List.flatMap_cons, List.filter_append, ih]

/-- `is_valid_move` only holds on in-bounds, empty, non-ko cells. -/
theorem is_valid_move_checks {s : GoBoard} {x y : Int}
    (h : is_valid_move s x y = true) :
    inBounds s.size x y = true ∧ getCell s.board x y = 0 ∧
      ∀ k, s.ko_point = some k → (x, y) ≠ k := by
  unfold is_valid_move at h
  by_cases hb : inBounds s.size x y = true
  · by_cases he : getCell s.board x y = 0
    · refine ⟨hb, he, ?_⟩
      intro k hk hxy
      rw [hb, hk] at h
      subst hxy
      simp at h
    · rw [hb, if_neg (not_not_intro rfl), if_pos he] at h
      cases h
  · rw [if_pos (by simpa using hb)] at h
    cases h

/-- C6: `get_valid_moves()` is exactly the row-major scan of the grid filtered
by `is_valid_move`; membership is equivalent to `is_valid_move`; consequently
the list never contains the current ko point, an occupied cell, or an
out-of-range coordinate; and it may be empty. -/
theorem get_valid_moves_spec (s : GoBoard) :
    get_valid_moves s = (allCells s.size).filter (fun p => is_valid_move s p.1 p.2) ∧
    (∀ p : Int × Int, p ∈ get_valid_moves s ↔ is_valid_move s p.1 p.2 = true) ∧
    (∀ p ∈ get_valid_moves s,
      inBounds s.size p.1 p.2 = true ∧ getCell s.board p.1 p.2 = 0 ∧
        ∀ k, s.ko_point = some k → p ≠ k) ∧
    get_valid_moves (GoBoard.init 0) = [] := by
  have heq : get_valid_moves s =
      (allCells s.size).filter (fun p => is_valid_move s p.1 p.2) := by
    unfold get_valid_moves allCells
    rw [filter_flatMap_comm]
    refine congrArg (List.flatMap _) (funext fun yy => ?_)
    exact filterMap_if_eq_filter_map (List.range s.size)
      (fun xx => ((xx : Int), (yy : Int))) (fun p => is_valid_move s p.1 p.2)
  have hmem : ∀ p : Int × Int, p ∈ get_valid_moves s ↔ is_valid_move s p.1 p.2 = true := by
    intro p
    rw [heq, List.mem_filter]
    constructor
    · exact fun h => h.2
    · intro h
      exact ⟨mem_allCells.mpr (is_valid_move_checks h).1, h⟩
  refine ⟨heq, hmem, ?_, by decide⟩
  intro p hp
  obtain ⟨hb, he, hk⟩ := is_valid_move_checks ((hmem p).mp hp)
  exact ⟨hb, he, fun k h hpk => hk k h (by cases p; simpa using hpk)⟩

theorem get_valid_moves_spec_witness :
    ((3, 0) ∈ get_valid_moves koTaken ↔ is_valid_move koTaken 3 0 = true) ∧
      (inBounds koTaken.size 3 0 = true ∧ getCell koTaken.board 3 0 = 0 ∧
        ∀ k, koTaken.ko_point = some k → ((3 : Int), (0 : Int)) ≠ k) := by
  exact ⟨(get_valid_moves_spec koTaken).2.1 (3, 0),
    (get_valid_moves_spec koTaken).2.2.1 (3, 0) (by decide)⟩

/-- `_can_capture_anything` holds exactly when some orthogonal neighbour holds
an opponent stone whose group has no liberty once the played point is
excluded. -/
theorem can_capture_anything_iff (size : Nat) (board : List (List Nat)) (x y : Int)
    (opp : Nat) :
    can_capture_anything size board x y opp = true ↔
      ∃ d ∈ adjSteps, inBounds size (x + d.1) (y + d.2) = true ∧
        getCell board (x + d.1) (y + d.2) = opp ∧
        group_has_liberty_excluding size board
          (get_group_at size board (x + d.1) (y + d.2) opp) opp x y = false := by
  unfold can_capture_anything
  rw [List.any_eq_true]
  constructor
  · rintro ⟨d, hd, h⟩
    refine ⟨d, hd, ?_⟩
    by_cases hb : inBounds size (x + d.1) (y + d.2) = true
    · rw [if_pos hb] at h
      by_cases hc : getCell board (x + d.1) (y + d.2) = opp
      · rw [if_pos hc] at h
        exact ⟨hb, hc, by simpa using h⟩
      · rw [if_neg hc] at h
        cases h
    · rw [if_neg hb] at h
      cases h
  · rintro ⟨d, hd, hb, hc, hl⟩
    exact ⟨d, hd, by rw [if_pos hb, if_pos hc, hl]; rfl⟩

/-- C1: for an in-bounds, empty, non-ko cell, `is_valid_move(x, y)` holds iff
placing the current player's stone there leaves some adjacent opponent group
with zero liberties excluding `(x, y)` (a capturing move, legal
unconditionally), or else the placing colour's own resulting group retains at
least one liberty — so a move that leaves its own group with no liberties is
legal only when it captures. -/
theorem is_valid_move_characterization (s : GoBoard) (x y : Int)
    (hb : inBounds s.size x y = true) (he : getCell s.board x y = 0)
    (hk : ∀ k, s.ko_point = some k → (x, y) ≠ k) :
    is_valid_move s x y = true ↔
      ((∃ d ∈ adjSteps, inBounds s.size (x + d.1) (y + d.2) = true ∧
          getCell (setCell s.board x y s.current_player) (x + d.1) (y + d.2) =
            3 - s.current_player ∧
          group_has_liberty_excluding s.size (setCell s.board x y s.current_player)
            (get_group_at s.size (setCell s.board x y s.current_player) (x + d.1) (y + d.2)
              (3 - s.current_player)) (3 - s.current_player) x y = false) ∨
        has_any_liberty s.size (setCell s.board x y s.current_player) x y
          s.current_player = true) := by
  unfold is_valid_move
  rw [hb, if_neg (not_not_intro rfl), if_neg (not_not_intro he)]
  have hko : (match s.ko_point with
      | some k => decide ((x, y) = k)
      | none => false) = false := by
    cases hk0 : s.ko_point with
    | none => rfl
    | some k => simpa using hk k hk0
  rw [hko, if_neg (by simp)]
  rw [← can_capture_anything_iff]
  by_cases hcc : can_capture_anything s.size (setCell s.board x y s.current_player) x y
      (3 - s.current_player) = true
  · simp [hcc]
  · rw [Bool.not_eq_true] at hcc
    cases hl : has_any_liberty s.size (setCell s.board x y s.current_player) x y
        s.current_player <;> simp [hcc, hl]

theorem is_valid_move_characterization_witness :
    is_valid_move (GoBoard.init 2) 0 0 = true ↔
      ((∃ d ∈ adjSteps, inBounds (GoBoard.init 2).size (0 + d.1) (0 + d.2) = true ∧
          getCell (setCell (GoBoard.init 2).board 0 0 (GoBoard.init 2).current_player)
            (0 + d.1) (0 + d.2) = 3 - (GoBoard.init 2).current_player ∧
          group_has_liberty_excluding (GoBoard.init 2).size
            (setCell (GoBoard.init 2).board 0 0 (GoBoard.init 2).current_player)
            (get_group_at (GoBoard.init 2).size
              (setCell (GoBoard.init 2).board 0 0 (GoBoard.init 2).current_player)
              (0 + d.1) (0 + d.2) (3 - (GoBoard.init 2).current_player))
            (3 - (GoBoard.init 2).current_player) 0 0 = false) ∨
        has_any_liberty (GoBoard.init 2).size
          (setCell (GoBoard.init 2).board 0 0 (GoBoard.init 2).current_player) 0 0
          (GoBoard.init 2).current_player = true) :=
  is_valid_move_characterization (GoBoard.init 2) 0 0 (by decide) (by decide)
    (fun k h => Option.noConfusion h)

/-- C9 counterexample: `GameManager.create_game` builds the `AdvancedAI` once,
on the fresh board, so its stored `game_phase` is `"opening"`; after 120 moves
the threshold function of the move count says `"endgame"`, yet the positional
evaluator still scores with the stored `"opening"` phase (star point +25
instead of the endgame value 5) — the phase used by evaluation is not a
function of the move count at evaluation time. -/
theorem passN_fields (n : Nat) (s : GoBoard) :
    (passN n s).board = s.board ∧ (passN n s).size = s.size ∧
      (passN n s).move_history.length = s.move_history.length + n := by
  induction n generalizing s with
  | zero => exact ⟨rfl, rfl, rfl⟩
  | succ n ih =>
    obtain ⟨hb, hs, hl⟩ := ih (pass_move s)
    refine ⟨hb, hs, ?_⟩
    show (passN n (pass_move s)).move_history.length = _
    rw [hl]
    simp [pass_move]
    omega

theorem game_phase_stale_counterexample :
    lateBoard.move_history.length = 120 ∧
      determine_game_phase lateBoard.move_history.length = "endgame" ∧
      aiAtStart.game_phase = "opening" ∧
      aiAtStart.game_phase ≠ determine_game_phase lateBoard.move_history.length ∧
      evaluate_position_advanced aiAtStart lateBoard 3 3 = (25, "占据星位") ∧
      evaluate_position_advanced
        { aiAtStart with game_phase := determine_game_phase lateBoard.move_history.length }
        lateBoard 3 3 = (5, "") := by
  obtain ⟨hb, hs, hl⟩ := passN_fields 120 (GoBoard.init 19)
  have hlen : lateBoard.move_history.length = 120 := by
    simpa [lateBoard, GoBoard.init] using hl
  have hphase : aiAtStart.game_phase = "opening" := by decide
  have hcs : is_corner_star lateBoard 3 3 = true := by
    unfold is_corner_star
    rw [show lateBoard.size = 19 from hs]
    decide
  refine ⟨hlen, by rw [hlen]; decide, hphase, by rw [hlen, hphase]; decide, ?_, ?_⟩
  · unfold evaluate_position_advanced
    rw [hphase, if_pos rfl, hcs, if_pos rfl]
  · rw [hlen, show determine_game_phase 120 = "endgame" from by decide]
    have hpl : ({ aiAtStart with game_phase := "endgame" } : AdvancedAI).player = 2 := by
      decide
    have hcev : count_endgame_value lateBoard 2 3 3 = 5 := by
      unfold count_endgame_value
      rw [show lateBoard.size = 19 from hs, show lateBoard.board = (GoBoard.init 19).board
        from hb]
      decide
    unfold evaluate_position_advanced
    rw [hpl, if_neg (by decide), if_neg (by decide), if_pos rfl, hcev]
    norm_num

/-- C9 amended: the phase is a pure function of the move count at AI
*construction* time, with the fixed thresholds `<40` → opening, `<120` →
middlegame, else endgame; the positional evaluator reads only the stored
phase (its result does not depend on the stored move count, let alone the
move count at evaluation time). -/
theorem game_phase_construction_time (b : GoBoard) (p : Nat) (d : String)
    (ai : AdvancedAI) (s : GoBoard) (x y : Int) (n : Nat) :
    (mkAdvancedAI b p d).game_phase =
      (if b.move_history.length < 40 then "opening"
       else if b.move_history.length < 120 then "middlegame" else "endgame") ∧
    (mkAdvancedAI b p d).move_count = b.move_history.length ∧
    evaluate_position_advanced { ai with move_count := n } s x y =
      evaluate_position_advanced ai s x y := by
  exact ⟨rfl, rfl, rfl⟩

/-- The only error `_evaluate_shape` can produce is the `effiveness`
NameError. -/
theorem evaluate_shape_error_msg (ai : AdvancedAI) (s : GoBoard) (x y : Int)
    (e : String) (h : evaluate_shape ai s x y = .error e) :
    e = "NameError: name effiveness is not defined" := by
  unfold evaluate_shape at h
  split at h
  · cases h
  · split at h
    · cases h
    · have h2 : (if 12 < calculate_efficiency s ai.player ai.opponent x y then
          (Except.error "NameError: name effiveness is not defined" :
            Except String (ℚ × String))
          else .ok (calculate_efficiency s ai.player ai.opponent x y, "")) =
          .error e := h
      split at h2
      · injection h2 with he
        exact he.symm
      · cases h2

/-- The only error `_evaluate_move_deep` can produce is the `effiveness`
NameError escaping `_evaluate_shape`. -/
theorem evaluate_move_deep_error_msg (ai : AdvancedAI) (s : GoBoard) (x y : Int)
    (e : String) (h : evaluate_move_deep ai s x y = .error e) :
    e = "NameError: name effiveness is not defined" := by
  unfold evaluate_move_deep at h
  cases hs2 : evaluate_shape ai s x y with
  | error e2 =>
    rw [hs2] at h
    have h' : (Except.error e2 : Except String (ℚ × String)) = Except.error e := h
    injection h' with he
    subst he
    exact evaluate_shape_error_msg ai s x y e2 hs2
  | ok sh =>
    rw [hs2] at h
    exact Except.noConfusion h

/-- If any candidate's deep evaluation raises, the hard-tier candidate loop
propagates the NameError (the source has no handler). -/
theorem advLoop_error_of_mem (ai : AdvancedAI) (s : GoBoard) (jitter : Nat → ℚ)
    (ms : List (Int × Int)) (i : Nat) (best : Option (ℚ × (Int × Int) × List String))
    (hex : ∃ m ∈ ms, ∃ e, evaluate_move_deep ai s m.1 m.2 = .error e) :
    advLoop ai s jitter ms i best = .error "NameError: name effiveness is not defined" := by
  induction ms generalizing i best with
  | nil => simp at hex
  | cons m ms ih =>
    rw [advLoop]
    cases hm : evaluate_move_deep ai s m.1 m.2 with
    | error e =>
      simp only [hm]
      rw [evaluate_move_deep_error_msg ai s m.1 m.2 e hm]
    | ok ev =>
      have hex2 : ∃ m2 ∈ ms, ∃ e, evaluate_move_deep ai s m2.1 m2.2 = .error e := by
        obtain ⟨m2, hm2, e, he⟩ := hex
        rcases List.mem_cons.mp hm2 with rfl | hmem
        · rw [hm] at he
          cases he
        · exact ⟨m2, hmem, e, he⟩
      simp only [hm]
      cases best with
      | none => exact ih _ _ hex2
      | some b =>
        show (if b.1 < ev.1 + jitter i * (1 / 2) then
            advLoop ai s jitter ms (i + 1) (some (ev.1 + jitter i * (1 / 2), m, [ev.2]))
          else if b.1 - 2 < ev.1 + jitter i * (1 / 2) then
            advLoop ai s jitter ms (i + 1) (some (b.1, b.2.1, b.2.2 ++ [ev.2]))
          else advLoop ai s jitter ms (i + 1) (some b)) = _
        split
        · exact ih _ _ hex2
        · split
          · exact ih _ _ hex2
          · exact ih _ _ hex2

/-- C7: on `nameErrorBoard` (a legal position where the empty point (1, 1) has
`_calculate_efficiency = 79/6 > 12` and no two orthogonal friendly
neighbours), the hard tier's `_evaluate_shape` reaches the
`f"高效率{effiveness:.0f}分"` branch whose name `effiveness` is undefined
(`go_ai.py` line 222); the legal set is non-empty, yet whatever the random
jitter, `get_move` propagates the NameError instead of completing with a
chosen move — there is no fallback to the first legal move. -/
theorem effiveness_name_error (r0 : ℚ) (choice : Nat) (jitter : Nat → ℚ) :
    get_valid_moves nameErrorBoard = [(1, 0), (0, 1), (1, 1), (2, 1), (1, 2)] ∧
      get_move nameErrorAI nameErrorBoard r0 choice jitter =
        .error "NameError: name effiveness is not defined" := by
  have hvm : get_valid_moves nameErrorBoard = [(1, 0), (0, 1), (1, 1), (2, 1), (1, 2)] := by
    decide
  have hshape : evaluate_shape nameErrorAI nameErrorBoard 1 1 =
      .error "NameError: name effiveness is not defined" := by decide
  have hdeep : evaluate_move_deep nameErrorAI nameErrorBoard 1 1 =
      .error "NameError: name effiveness is not defined" := by
    unfold evaluate_move_deep
    rw [hshape]
  refine ⟨hvm, ?_⟩
  unfold get_move
  rw [hvm, if_neg (by simp), if_neg (by decide), if_pos (by decide)]
  unfold get_move_advanced
  rw [advLoop_error_of_mem nameErrorAI nameErrorBoard jitter _ 0 none
    ⟨(1, 1), by simp, "NameError: name effiveness is not defined", hdeep⟩]

theorem count_set_le (row : List Nat) (i : Nat) (v c : Nat) (hvc : v ≠ c) :
    (row.set i v).count c ≤ row.count c := by
  induction row generalizing i with
  | nil => simp
  | cons a row ih =>
    cases i with
    | zero =>
      rw [List.set_cons_zero]
      simp only [List.count_cons, beq_iff_eq]
      rw [if_neg hvc]
      split <;> omega
    | succ i =>
      simp only [List.set_cons_succ, List.count_cons]
      have := ih i
      omega

theorem countCells_setCell_le (b : List (List Nat)) (x y : Int) (v c : Nat)
    (hvc : v ≠ c) : countCells (setCell b x y v) c ≤ countCells b c := by
  unfold countCells setCell
  generalize y.toNat = i
  induction b generalizing i with
  | nil => simp
  | cons r b ih =>
    cases i with
    | zero =>
      simp only [List.getD_cons_zero, List.set_cons_zero, List.map_cons, List.sum_cons]
      exact Nat.add_le_add_right (count_set_le r x.toNat v c hvc) _
    | succ i =>
      simp only [List.getD_cons_succ, List.set_cons_succ, List.map_cons, List.sum_cons]
      exact Nat.add_le_add_left (ih i) _

theorem countCells_capture_le (cap : List (Int × Int)) (b : List (List Nat)) (c : Nat)
    (hc : (0 : Nat) ≠ c) :
    countCells (cap.foldl (fun bb p => setCell bb p.1 p.2 0) b) c ≤ countCells b c := by
  induction cap generalizing b with
  | nil => exact Nat.le_refl _
  | cons p cap ih =>
    simp only [List.foldl_cons]
    exact Nat.le_trans (ih _) (countCells_setCell_le b p.1 p.2 0 c hc)

theorem row_count_sum (row : List Nat) (h : ∀ v ∈ row, v ≤ 2) :
    row.count 0 + row.count 1 + row.count 2 = row.length := by
  induction row with
  | nil => rfl
  | cons a row ih =>
    have ha : a ≤ 2 := h a (List.mem_cons_self a row)
    have hr := ih fun v hv => h v (List.mem_cons_of_mem a hv)
    simp only [List.count_cons, List.length_cons]
    interval_cases a <;> simp <;> omega

theorem board_count_sum (bd : List (List Nat)) (n : Nat)
    (h : ∀ row ∈ bd, row.length = n ∧ ∀ v ∈ row, v ≤ 2) :
    countCells bd 0 + countCells bd 1 + countCells bd 2 = bd.length * n := by
  induction bd with
  | nil => simp [countCells]
  | cons r bd ih =>
    have hr := h r (List.mem_cons_self r bd)
    have hb := ih fun row hrow => h row (List.mem_cons_of_mem r hrow)
    unfold countCells at hb ⊢
    simp only [List.map_cons, List.sum_cons, List.length_cons]
    rw [Nat.succ_mul]
    have := row_count_sum r hr.2
    rw [hr.1] at this
    omega

theorem WF_board_setCell {bd : List (List Nat)} {n : Nat} (x y : Int) (v : Nat)
    (hv : v ≤ 2) (hlen : bd.length = n)
    (hrows : ∀ row ∈ bd, row.length = n ∧ ∀ c ∈ row, c ≤ 2) :
    (setCell bd x y v).length = n ∧
      ∀ row ∈ setCell bd x y v, row.length = n ∧ ∀ c ∈ row, c ≤ 2 := by
  unfold setCell
  refine ⟨by simp [hlen], ?_⟩
  intro row hrow
  by_cases hy : y.toNat < bd.length
  · rcases List.mem_or_eq_of_mem_set hrow with hmem | heq
    · exact hrows row hmem
    · subst heq
      rw [List.getD_eq_getElem bd [] hy]
      have hbase := hrows bd[y.toNat] (bd.getElem_mem hy)
      refine ⟨by simp [hbase.1], ?_⟩
      intro c hc
      rcases List.mem_or_eq_of_mem_set hc with hmem2 | rfl
      · exact hbase.2 c hmem2
      · exact hv
  · rw [List.set_eq_of_length_le (by omega)] at hrow
    exact hrows row hrow

theorem WF_board_capture {bd : List (List Nat)} {n : Nat} (cap : List (Int × Int))
    (hlen : bd.length = n)
    (hrows : ∀ row ∈ bd, row.length = n ∧ ∀ c ∈ row, c ≤ 2) :
    (cap.foldl (fun bb p => setCell bb p.1 p.2 0) bd).length = n ∧
      ∀ row ∈ cap.foldl (fun bb p => setCell bb p.1 p.2 0) bd,
        row.length = n ∧ ∀ c ∈ row, c ≤ 2 := by
  induction cap generalizing bd with
  | nil => exact ⟨hlen, hrows⟩
  | cons p cap ih =>
    simp only [List.foldl_cons]
    have hstep := WF_board_setCell p.1 p.2 0 (by decide) hlen hrows
    exact ih hstep.1 hstep.2

theorem WF_place (s : GoBoard) (x y : Int) (h : WF s) : WF (place_stone s x y).2 := by
  obtain ⟨hlen, hrows, hcp⟩ := h
  unfold place_stone
  by_cases hv : is_valid_move s x y = true
  · rw [hv, if_neg (not_not_intro rfl)]
    simp only
    have hcple : s.current_player ≤ 2 := by rcases hcp with h | h <;> omega
    have h1 := WF_board_setCell x y s.current_player hcple hlen hrows
    have h2 := WF_board_capture
      (find_and_capture_stones s.size (setCell s.board x y s.current_player) x y
        (3 - s.current_player)).1 h1.1 h1.2
    have hfc : (find_and_capture_stones s.size (setCell s.board x y s.current_player) x y
        (3 - s.current_player)).2 =
        (find_and_capture_stones s.size (setCell s.board x y s.current_player) x y
          (3 - s.current_player)).1.foldl (fun bb p => setCell bb p.1 p.2 0)
          (setCell s.board x y s.current_player) := rfl
    refine ⟨by rw [hfc]; exact h2.1, by rw [hfc]; exact h2.2, ?_⟩
    rcases hcp with h | h
    · exact Or.inr (by show 3 - s.current_player = 2; omega)
    · exact Or.inl (by show 3 - s.current_player = 1; omega)
  · rw [Bool.not_eq_true] at hv
    rw [hv, if_pos (by simp)]
    exact ⟨hlen, hrows, hcp⟩

theorem WF_pass (s : GoBoard) (h : WF s) : WF (pass_move s) := by
  obtain ⟨hlen, hrows, hcp⟩ := h
  refine ⟨hlen, hrows, ?_⟩
  rcases hcp with h | h
  · exact Or.inr (by show 3 - s.current_player = 2; omega)
  · exact Or.inl (by show 3 - s.current_player = 1; omega)

theorem WF_init (n : Nat) : WF (GoBoard.init n) := by
  refine ⟨by simp [GoBoard.init], ?_, Or.inl rfl⟩
  intro row hrow
  rw [List.eq_of_mem_replicate hrow]
  refine ⟨by simp [GoBoard.init], ?_⟩
  intro v hv
  rw [List.eq_of_mem_replicate hv]
  decide

theorem Reachable_WF {n : Nat} {s : GoBoard} (h : Reachable n s) : WF s := by
  induction h with
  | init => exact WF_init n
  | place x y hr ih => exact WF_place _ x y ih
  | pass hr ih => exact WF_pass _ ih

theorem Reachable_size {n : Nat} {s : GoBoard} (h : Reachable n s) : s.size = n := by
  induction h with
  | init => rfl
  | place x y hr ih =>
    unfold place_stone
    split
    · exact ih
    · exact ih
  | pass hr ih => exact ih

/-- C8: in every state reachable from a fresh `n × n` board, the black, white
and empty cell counts sum to `n²`; `place_stone` never increases the number of
opponent (non-mover) stones on the board; and the two capture counters never
decrease across `place_stone` or `pass_move`. -/
theorem counting_invariants (n : Nat) (s : GoBoard) (hr : Reachable n s) (x y : Int) :
    countCells s.board 0 + countCells s.board 1 + countCells s.board 2 = n * n ∧
      countCells (place_stone s x y).2.board (3 - s.current_player) ≤
        countCells s.board (3 - s.current_player) ∧
      s.captured_black ≤ (place_stone s x y).2.captured_black ∧
      s.captured_white ≤ (place_stone s x y).2.captured_white ∧
      (pass_move s).captured_black = s.captured_black ∧
      (pass_move s).captured_white = s.captured_white := by
  obtain ⟨hlen, hrows, hcp⟩ := Reachable_WF hr
  have hsize := Reachable_size hr
  refine ⟨?_, ?_, ?_, ?_, rfl, rfl⟩
  · have hsum := board_count_sum s.board s.size fun row hrow => hrows row hrow
    rw [hlen, hsize] at hsum
    exact hsum
  · unfold place_stone
    by_cases hv : is_valid_move s x y = true
    · rw [hv, if_neg (not_not_intro rfl)]
      simp only
      have hstep := countCells_setCell_le s.board x y s.current_player
        (3 - s.current_player) (by omega)
      have hcap := countCells_capture_le
        (find_and_capture_stones s.size (setCell s.board x y s.current_player) x y
          (3 - s.current_player)).1
        (setCell s.board x y s.current_player) (3 - s.current_player) (by omega)
      exact Nat.le_trans hcap hstep
    · rw [Bool.not_eq_true] at hv
      rw [hv, if_pos (by simp)]
  · unfold place_stone
    by_cases hv : is_valid_move s x y = true
    · rw [hv, if_neg (not_not_intro rfl)]
      simp only
      split <;> omega
    · rw [Bool.not_eq_true] at hv
      rw [hv, if_pos (by simp)]
  · unfold place_stone
    by_cases hv : is_valid_move s x y = true
    · rw [hv, if_neg (not_not_intro rfl)]
      simp only
      split <;> omega
    · rw [Bool.not_eq_true] at hv
      rw [hv, if_pos (by simp)]

theorem counting_invariants_witness :
    countCells w8.board 1 = 1 ∧
      (countCells w8.board 0 + countCells w8.board 1 + countCells w8.board 2 = 2 * 2 ∧
        countCells (place_stone w8 1 1).2.board (3 - w8.current_player) ≤
          countCells w8.board (3 - w8.current_player) ∧
        w8.captured_black ≤ (place_stone w8 1 1).2.captured_black ∧
        w8.captured_white ≤ (place_stone w8 1 1).2.captured_white ∧
        (pass_move w8).captured_black = w8.captured_black ∧
        (pass_move w8).captured_white = w8.captured_white) :=
  ⟨by decide, counting_invariants 2 w8 (Reachable.place 0 0 Reachable.init) 1 1⟩

/-! ### Correctness of the group flood fill -/

theorem adjacentP_symm {p q : Int × Int} (h : adjacentP p q) : adjacentP q p := by
  obtain ⟨d, hd, rfl⟩ := h
  refine ⟨(-d.1, -d.2), ?_, ?_⟩
  · fin_cases hd <;> decide
  · simp

theorem reaches_mono {size : Nat} {b b2 : List (List Nat)} {c : Nat}
    (hmono : ∀ q : Int × Int, inBounds size q.1 q.2 = true → getCell b q.1 q.2 = c →
      getCell b2 q.1 q.2 = c)
    {p q : Int × Int} (h : reaches size b c p q) : reaches size b2 c p q := by
  induction h with
  | refl => exact Relation.ReflTransGen.refl
  | tail _ hstep ih =>
    exact Relation.ReflTransGen.tail ih
      ⟨hstep.1, hstep.2.1, hmono _ hstep.2.1 hstep.2.2⟩

theorem reaches_symm_aux {size : Nat} {b : List (List Nat)} {c : Nat} {p q : Int × Int}
    (hb : inBounds size p.1 p.2 = true) (hc : getCell b p.1 p.2 = c)
    (h : reaches size b c p q) :
    (inBounds size q.1 q.2 = true ∧ getCell b q.1 q.2 = c) ∧ reaches size b c q p := by
  induction h with
  | refl => exact ⟨⟨hb, hc⟩, Relation.ReflTransGen.refl⟩
  | tail hr hstep ih =>
    refine ⟨⟨hstep.2.1, hstep.2.2⟩, ?_⟩
    exact Relation.ReflTransGen.trans
      (Relation.ReflTransGen.single ⟨adjacentP_symm hstep.1, ih.1.1, ih.1.2⟩) ih.2

theorem reaches_symm {size : Nat} {b : List (List Nat)} {c : Nat} {p q : Int × Int}
    (hb : inBounds size p.1 p.2 = true) (hc : getCell b p.1 p.2 = c)
    (h : reaches size b c p q) : reaches size b c q p :=
  (reaches_symm_aux hb hc h).2

theorem length_allCells (size : Nat) : (allCells size).length = size * size := by
  unfold allCells
  rw [List.length_flatMap]
  simp only [Function.comp_def, List.length_map, List.length_range]
  rw [List.map_const', List.sum_replicate, List.length_range, smul_eq_mul]

theorem cellsLeft_nil (size : Nat) : cellsLeft size [] = size * size := by
  unfold cellsLeft
  rw [← length_allCells size]
  congr 1
  exact List.filter_eq_self.mpr fun a _ => by simp

theorem groupLoop_subset (size : Nat) (board : List (List Nat)) (player : Nat) :
    ∀ fuel stack group, ∀ q ∈ group, q ∈ groupLoop size board player fuel stack group := by
  intro fuel
  induction fuel with
  | zero =>
    intro stack group q hq
    simpa [groupLoop] using hq
  | succ fuel ih =>
    intro stack group q hq
    cases stack with
    | nil => simpa [groupLoop] using hq
    | cons c stack =>
      rw [groupLoop]
      split
      · exact ih _ _ q hq
      · split
        · split
          · exact ih _ _ q (List.mem_cons_of_mem c hq)
          · exact ih _ _ q hq
        · exact ih _ _ q hq

theorem groupLoop_sound (size : Nat) (board : List (List Nat)) (player : Nat)
    (st : Int × Int) :
    ∀ fuel stack group,
      (∀ q ∈ group, inBounds size q.1 q.2 = true ∧ getCell board q.1 q.2 = player ∧
        reaches size board player st q) →
      (∀ q ∈ stack, inBounds size q.1 q.2 = true → getCell board q.1 q.2 = player →
        reaches size board player st q) →
      ∀ q ∈ groupLoop size board player fuel stack group,
        inBounds size q.1 q.2 = true ∧ getCell board q.1 q.2 = player ∧
          reaches size board player st q := by
  intro fuel
  induction fuel with
  | zero =>
    intro stack group hA hB q hq
    exact hA q (by simpa [groupLoop] using hq)
  | succ fuel ih =>
    intro stack group hA hB q hq
    cases stack with
    | nil => exact hA q (by simpa [groupLoop] using hq)
    | cons c stack =>
      rw [groupLoop] at hq
      by_cases h1 : c ∈ group
      · rw [if_pos h1] at hq
        exact ih stack group hA (fun r hr => hB r (List.mem_cons_of_mem c hr)) q hq
      · rw [if_neg h1] at hq
        by_cases h2 : inBounds size c.1 c.2 = true
        · rw [if_pos h2] at hq
          by_cases h3 : getCell board c.1 c.2 = player
          · rw [if_pos h3] at hq
            have hcr : reaches size board player st c :=
              hB c (List.mem_cons_self c stack) h2 h3
            refine ih _ _ ?_ ?_ q hq
            · intro r hr
              rcases List.mem_cons.mp hr with rfl | hr2
              · exact ⟨h2, h3, hcr⟩
              · exact hA r hr2
            · intro r hr hrb hrc
              rcases List.mem_append.mp hr with hr1 | hr2
              · obtain ⟨d, hd, hrd⟩ := List.mem_map.mp (List.mem_filter.mp hr1).1
                exact Relation.ReflTransGen.tail hcr ⟨⟨d, hd, hrd.symm⟩, hrb, hrc⟩
              · exact hB r (List.mem_cons_of_mem c hr2) hrb hrc
          · rw [if_neg h3] at hq
            exact ih stack group hA (fun r hr => hB r (List.mem_cons_of_mem c hr)) q hq
        · rw [if_neg h2] at hq
          exact ih stack group hA (fun r hr => hB r (List.mem_cons_of_mem c hr)) q hq

theorem pushLength_le (c : Int × Int) (group : List (Int × Int)) :
    ((adjSteps.map fun d => (c.1 + d.1, c.2 + d.2)).filter
      fun n => decide (n ∉ c :: group)).length ≤ 4 := by
  refine Nat.le_trans (List.length_filter_le _ _) ?_
  simp [adjSteps]

theorem groupLoop_mem_stack (size : Nat) (board : List (List Nat)) (player : Nat) :
    ∀ fuel stack group (q : Int × Int),
      5 * cellsLeft size group + stack.length ≤ fuel →
      q ∈ stack → inBounds size q.1 q.2 = true → getCell board q.1 q.2 = player →
      q ∈ groupLoop size board player fuel stack group := by
  intro fuel
  induction fuel with
  | zero =>
    intro stack group q hfuel hq _ _
    have := List.length_pos.mpr (List.ne_nil_of_mem hq)
    omega
  | succ fuel ih =>
    intro stack group q hfuel hq hqb hqc
    cases stack with
    | nil => cases hq
    | cons c stack =>
      simp only [List.length_cons] at hfuel
      rw [groupLoop]
      by_cases h1 : c ∈ group
      · rw [if_pos h1]
        rcases List.mem_cons.mp hq with rfl | hq2
        · exact groupLoop_subset size board player fuel stack group q h1
        · exact ih stack group q (by omega) hq2 hqb hqc
      · rw [if_neg h1]
        by_cases h2 : inBounds size c.1 c.2 = true
        · rw [if_pos h2]
          by_cases h3 : getCell board c.1 c.2 = player
          · rw [if_pos h3]
            rcases List.mem_cons.mp hq with rfl | hq2
            · exact groupLoop_subset size board player fuel _ _ q
                (List.mem_cons_self q group)
            · have hcl := cellsLeft_cons_lt h2 h1
              have hpl := pushLength_le c group
              refine ih _ _ q ?_ (List.mem_append_right _ hq2) hqb hqc
              rw [List.length_append]
              omega
          · rw [if_neg h3]
            rcases List.mem_cons.mp hq with rfl | hq2
            · exact absurd hqc h3
            · exact ih stack group q (by omega) hq2 hqb hqc
        · rw [if_neg h2]
          rcases List.mem_cons.mp hq with rfl | hq2
          · exact absurd hqb h2
          · exact ih stack group q (by omega) hq2 hqb hqc

theorem groupLoop_closed (size : Nat) (board : List (List Nat)) (player : Nat) :
    ∀ fuel stack group,
      5 * cellsLeft size group + stack.length ≤ fuel →
      (∀ c2 ∈ group, ∀ r, colStep size board player c2 r → r ∈ group ∨ r ∈ stack) →
      ∀ c2 ∈ groupLoop size board player fuel stack group, ∀ r,
        colStep size board player c2 r →
        r ∈ groupLoop size board player fuel stack group := by
  intro fuel
  induction fuel with
  | zero =>
    intro stack group hfuel hinv c2 hc2 r hr
    have hstack : stack = [] := List.length_eq_zero.mp (by omega)
    subst hstack
    simp only [groupLoop] at hc2 ⊢
    rcases hinv c2 hc2 r hr with h | h
    · exact h
    · cases h
  | succ fuel ih =>
    intro stack group hfuel hinv c2 hc2 r hr
    cases stack with
    | nil =>
      simp only [groupLoop] at hc2 ⊢
      rcases hinv c2 hc2 r hr with h | h
      · exact h
      · cases h
    | cons c stack =>
      simp only [List.length_cons] at hfuel
      rw [groupLoop] at hc2 ⊢
      by_cases h1 : c ∈ group
      · rw [if_pos h1] at hc2 ⊢
        refine ih stack group (by omega) ?_ c2 hc2 r hr
        intro c3 hc3 r2 hr2
        rcases hinv c3 hc3 r2 hr2 with h | h
        · exact Or.inl h
        · rcases List.mem_cons.mp h with rfl | h2
          · exact Or.inl h1
          · exact Or.inr h2
      · rw [if_neg h1] at hc2 ⊢
        by_cases h2 : inBounds size c.1 c.2 = true
        · rw [if_pos h2] at hc2 ⊢
          by_cases h3 : getCell board c.1 c.2 = player
          · rw [if_pos h3] at hc2 ⊢
            have hcl := cellsLeft_cons_lt h2 h1
            have hpl := pushLength_le c group
            refine ih _ _ (by rw [List.length_append]; omega) ?_ c2 hc2 r hr
            intro c3 hc3 r2 hr2
            rcases List.mem_cons.mp hc3 with rfl | hc4
            · by_cases hrg : r2 ∈ c3 :: group
              · exact Or.inl hrg
              · refine Or.inr (List.mem_append_left _ ?_)
                refine List.mem_filter.mpr ⟨?_, by simpa using hrg⟩
                obtain ⟨d, hd, hrd⟩ := hr2.1
                exact List.mem_map.mpr ⟨d, hd, hrd.symm⟩
            · rcases hinv c3 hc4 r2 hr2 with h | h
              · exact Or.inl (List.mem_cons_of_mem c h)
              · rcases List.mem_cons.mp h with rfl | h4
                · exact Or.inl (List.mem_cons_self r2 group)
                · exact Or.inr (List.mem_append_right _ h4)
          · rw [if_neg h3] at hc2 ⊢
            refine ih stack group (by omega) ?_ c2 hc2 r hr
            intro c3 hc3 r2 hr2
            rcases hinv c3 hc3 r2 hr2 with h | h
            · exact Or.inl h
            · rcases List.mem_cons.mp h with rfl | h4
              · exact absurd hr2.2.2 h3
              · exact Or.inr h4
        · rw [if_neg h2] at hc2 ⊢
          refine ih stack group (by omega) ?_ c2 hc2 r hr
          intro c3 hc3 r2 hr2
          rcases hinv c3 hc3 r2 hr2 with h | h
          · exact Or.inl h
          · rcases List.mem_cons.mp h with rfl | h4
            · exact absurd hr2.2.1 h2
            · exact Or.inr h4

/-- `_get_group_at` computes exactly the connected same-colour component of
its start cell. -/
theorem mem_get_group_at {size : Nat} {board : List (List Nat)} {player : Nat}
    {st q : Int × Int}
    (hb : inBounds size st.1 st.2 = true) (hc : getCell board st.1 st.2 = player) :
    q ∈ get_group_at size board st.1 st.2 player ↔ reaches size board player st q := by
  unfold get_group_at
  rw [if_neg (by simpa using hc)]
  have hfuel : 5 * cellsLeft size [] + ([(st.1, st.2)] : List (Int × Int)).length ≤
      groupFuel size := by
    rw [cellsLeft_nil]
    simp [groupFuel]
  constructor
  · intro hq
    have := groupLoop_sound size board player st (groupFuel size) [(st.1, st.2)] []
      (fun r hr => absurd hr (List.not_mem_nil r))
      (fun r hr _ _ => by
        rcases List.mem_singleton.mp hr with rfl
        exact Relation.ReflTransGen.refl) q hq
    exact this.2.2
  · intro hr
    have hst : st ∈ groupLoop size board player (groupFuel size) [(st.1, st.2)] [] :=
      groupLoop_mem_stack size board player (groupFuel size) [(st.1, st.2)] [] st hfuel
        (by simp) hb hc
    have hclosed := groupLoop_closed size board player (groupFuel size) [(st.1, st.2)] []
      hfuel (fun c2 hc2 => absurd hc2 (List.not_mem_nil c2))
    induction hr with
    | refl => exact hst
    | tail h1 hstep ih2 => exact hclosed _ ih2 _ hstep

/-! ### Pointwise description of cell updates and liberties -/

theorem setCell_dims {size : Nat} {b : List (List Nat)} (hlen : b.length = size)
    (hrows : ∀ row ∈ b, row.length = size) (x y : Int) (w : Nat) :
    (setCell b x y w).length = size ∧ ∀ row ∈ setCell b x y w, row.length = size := by
  unfold setCell
  refine ⟨by simp [hlen], ?_⟩
  intro row hrow
  by_cases hy : y.toNat < b.length
  · rcases List.mem_or_eq_of_mem_set hrow with hmem | heq
    · exact hrows row hmem
    · subst heq
      rw [List.getD_eq_getElem?_getD, List.getElem?_eq_getElem hy]
      simp only [Option.getD_some, List.length_set]
      exact hrows _ (List.getElem_mem hy)
  · rw [List.set_eq_of_length_le (by omega)] at hrow
    exact hrows row hrow

theorem getCell_setCell {size : Nat} {b : List (List Nat)} (hlen : b.length = size)
    (hrows : ∀ row ∈ b, row.length = size) {x y u v2 : Int}
    (hxy : inBounds size x y = true) (huv : inBounds size u v2 = true) (w : Nat) :
    getCell (setCell b x y w) u v2 = if (u, v2) = (x, y) then w else getCell b u v2 := by
  simp only [inBounds, Bool.and_eq_true, decide_eq_true_eq] at hxy huv
  obtain ⟨⟨⟨hx0, hxs⟩, hy0⟩, hys⟩ := hxy
  obtain ⟨⟨⟨hu0, hus⟩, hv0⟩, hvs⟩ := huv
  have hyl : y.toNat < b.length := by omega
  have hrowlen : (b.getD y.toNat []).length = size := by
    rw [List.getD_eq_getElem?_getD, List.getElem?_eq_getElem hyl]
    exact hrows _ (List.getElem_mem hyl)
  unfold getCell setCell
  simp only [List.getD_eq_getElem?_getD]
  by_cases hy : v2.toNat = y.toNat
  · by_cases hx : u.toNat = x.toNat
    · have heq : ((u, v2) : Int × Int) = (x, y) := by
        rw [Prod.mk.injEq]
        constructor <;> omega
      rw [if_pos heq, hy, List.getElem?_set_eq_of_lt _ hyl, Option.getD_some, hx,
        List.getElem?_set_eq_of_lt _ (by rw [← List.getD_eq_getElem?_getD]; omega),
        Option.getD_some]
    · have hne : ((u, v2) : Int × Int) ≠ (x, y) := by
        intro h
        injection h with h1 h2
        omega
      rw [if_neg hne, hy, List.getElem?_set_eq_of_lt _ hyl, Option.getD_some,
        List.getElem?_set_ne (by omega : x.toNat ≠ u.toNat)]
  · have hne : ((u, v2) : Int × Int) ≠ (x, y) := by
      intro h
      injection h with h1 h2
      omega
    rw [if_neg hne, List.getElem?_set_ne (by omega : y.toNat ≠ v2.toNat)]

theorem getCell_foldCapture {size : Nat} :
    ∀ (S : List (Int × Int)) (b : List (List Nat)), b.length = size →
      (∀ row ∈ b, row.length = size) →
      (∀ p ∈ S, inBounds size p.1 p.2 = true) →
      ∀ {u v2 : Int}, inBounds size u v2 = true →
      getCell (S.foldl (fun bb p => setCell bb p.1 p.2 0) b) u v2 =
        if (u, v2) ∈ S then 0 else getCell b u v2 := by
  intro S
  induction S with
  | nil =>
    intro b _ _ _ u v2 _
    simp
  | cons p S ih =>
    intro b hlen hrows hS u v2 huv
    have hdims := setCell_dims hlen hrows p.1 p.2 0
    simp only [List.foldl_cons]
    rw [ih _ hdims.1 hdims.2 (fun r hr => hS r (List.mem_cons_of_mem p hr)) huv]
    by_cases hmem : ((u, v2) : Int × Int) ∈ S
    · simp [hmem]
    · rw [if_neg hmem, getCell_setCell hlen hrows (hS p (List.mem_cons_self p S)) huv 0]
      by_cases hp : ((u, v2) : Int × Int) = p
      · simp [hp]
      · rw [if_neg (by simpa using hp), if_neg (by simp [List.mem_cons, hp, hmem])]

theorem group_has_liberty_iff (size : Nat) (b : List (List Nat))
    (g : List (Int × Int)) (player : Nat) :
    group_has_liberty size b g player = true ↔
      ∃ p ∈ g, ∃ d ∈ adjSteps, inBounds size (p.1 + d.1) (p.2 + d.2) = true ∧
        getCell b (p.1 + d.1) (p.2 + d.2) = 0 := by
  unfold group_has_liberty
  simp [List.any_eq_true, Bool.and_eq_true, decide_eq_true_eq]

theorem group_has_liberty_excluding_iff (size : Nat) (b : List (List Nat))
    (g : List (Int × Int)) (player : Nat) (ex1 ex2 : Int) :
    group_has_liberty_excluding size b g player ex1 ex2 = true ↔
      ∃ p ∈ g, ∃ d ∈ adjSteps, (p.1 + d.1, p.2 + d.2) ≠ (ex1, ex2) ∧
        inBounds size (p.1 + d.1) (p.2 + d.2) = true ∧
        getCell b (p.1 + d.1) (p.2 + d.2) = 0 := by
  unfold group_has_liberty_excluding
  simp only [List.any_eq_true]
  constructor
  · rintro ⟨p, hp, d, hd, h⟩
    by_cases hex : ((p.1 + d.1, p.2 + d.2) : Int × Int) = (ex1, ex2)
    · rw [if_pos hex] at h
      cases h
    · rw [if_neg hex] at h
      simp only [Bool.and_eq_true, decide_eq_true_eq] at h
      exact ⟨p, hp, d, hd, hex, h.1, h.2⟩
  · rintro ⟨p, hp, d, hd, hex, hb2, hc⟩
    exact ⟨p, hp, d, hd, by rw [if_neg hex]; simp [hb2, hc]⟩

theorem ghle_congr (size : Nat) (b : List (List Nat)) (player : Nat) (ex1 ex2 : Int)
    {g g2 : List (Int × Int)} (h : ∀ p, p ∈ g ↔ p ∈ g2) :
    group_has_liberty_excluding size b g player ex1 ex2 =
      group_has_liberty_excluding size b g2 player ex1 ex2 := by
  cases h1 : group_has_liberty_excluding size b g player ex1 ex2 with
  | true =>
    obtain ⟨p, hp, rest⟩ := (group_has_liberty_excluding_iff size b g player ex1 ex2).mp h1
    exact ((group_has_liberty_excluding_iff size b g2 player ex1 ex2).mpr
      ⟨p, (h p).mp hp, rest⟩).symm
  | false =>
    cases h2 : group_has_liberty_excluding size b g2 player ex1 ex2 with
    | true =>
      obtain ⟨p, hp, rest⟩ :=
        (group_has_liberty_excluding_iff size b g2 player ex1 ex2).mp h2
      rw [← h1]
      exact ((group_has_liberty_excluding_iff size b g player ex1 ex2).mpr
        ⟨p, (h p).mpr hp, rest⟩)
    | false => rfl

theorem listSetEq_iff {g h : List (Int × Int)} :
    listSetEq g h = true ↔ ∀ p, p ∈ g ↔ p ∈ h := by
  unfold listSetEq
  simp only [Bool.and_eq_true, List.all_eq_true, decide_eq_true_eq]
  constructor
  · rintro ⟨h1, h2⟩ p
    exact ⟨fun hp => h1 p hp, fun hp => h2 p hp⟩
  · intro hiff
    exact ⟨fun p hp => (hiff p).mp hp, fun p hp => (hiff p).mpr hp⟩

/-- Two stones in the same component have identical groups (as sets). -/
theorem grp_set_eq {size : Nat} {b : List (List Nat)} {opp : Nat} {n1 n2 : Int × Int}
    (h1b : inBounds size n1.1 n1.2 = true) (h1c : getCell b n1.1 n1.2 = opp)
    (h2b : inBounds size n2.1 n2.2 = true) (h2c : getCell b n2.1 n2.2 = opp)
    (h : n2 ∈ get_group_at size b n1.1 n1.2 opp) :
    ∀ r, r ∈ get_group_at size b n2.1 n2.2 opp ↔ r ∈ get_group_at size b n1.1 n1.2 opp := by
  intro r
  have h12 : reaches size b opp n1 n2 := (mem_get_group_at h1b h1c).mp h
  have h21 : reaches size b opp n2 n1 := reaches_symm h1b h1c h12
  rw [mem_get_group_at h2b h2c, mem_get_group_at h1b h1c]
  exact ⟨fun hr => Relation.ReflTransGen.trans h12 hr,
    fun hr => Relation.ReflTransGen.trans h21 hr⟩

/-- Members of a computed group are in-bounds stones of the group's colour,
lying in the start's component. -/
theorem get_group_at_mem_props {size : Nat} {b : List (List Nat)} {opp : Nat}
    {n1 q : Int × Int}
    (h1b : inBounds size n1.1 n1.2 = true) (h1c : getCell b n1.1 n1.2 = opp)
    (h : q ∈ get_group_at size b n1.1 n1.2 opp) :
    inBounds size q.1 q.2 = true ∧ getCell b q.1 q.2 = opp :=
  (reaches_symm_aux h1b h1c ((mem_get_group_at h1b h1c).mp h)).1

/-! ### The capture scan computes exactly the liberty-less adjacent groups -/

theorem scanStep_inv {size : Nat} {board : List (List Nat)} {x y : Int} {opp : Nat}
    {ps : List (Int × Int)} {acc : List (Int × Int) × List (List (Int × Int))}
    (h : ScanInv size board x y opp ps acc) (d : Int × Int) :
    ScanInv size board x y opp (ps ++ [d]) (captureScanStep size board x y opp acc d) := by
  obtain ⟨hA, hB⟩ := h
  have unchanged : (∀ q, scanCap size board x y opp d →
      q ∈ get_group_at size board (x + d.1) (y + d.2) opp → q ∈ acc.1) →
      ScanInv size board x y opp (ps ++ [d]) acc := by
    intro hnew
    constructor
    · intro q
      constructor
      · intro hq
        obtain ⟨d', hd', hc, hg⟩ := (hA q).mp hq
        exact ⟨d', List.mem_append_left _ hd', hc, hg⟩
      · rintro ⟨d', hd', hc, hg⟩
        rcases List.mem_append.mp hd' with hd' | hd'
        · exact (hA q).mpr ⟨d', hd', hc, hg⟩
        · rw [List.mem_singleton] at hd'
          subst hd'
          exact hnew q hc hg
    · intro g hg
      obtain ⟨d', hd', rest⟩ := hB g hg
      exact ⟨d', List.mem_append_left _ hd', rest⟩
  have heq : captureScanStep size board x y opp acc d =
      (if ¬ inBounds size (x + d.1) (y + d.2) = true then acc
       else if getCell board (x + d.1) (y + d.2) ≠ opp then acc
       else if (x + d.1, y + d.2) ∈ acc.1 then acc
       else if acc.2.any (fun g =>
           listSetEq g (get_group_at size board (x + d.1) (y + d.2) opp)) then acc
       else if group_has_liberty_excluding size board
           (get_group_at size board (x + d.1) (y + d.2) opp) opp x y then
         (acc.1, get_group_at size board (x + d.1) (y + d.2) opp :: acc.2)
       else
         (acc.1 ++ (get_group_at size board (x + d.1) (y + d.2) opp).filter
             (fun p => decide (p ∉ acc.1)),
           get_group_at size board (x + d.1) (y + d.2) opp :: acc.2)) := rfl
  rw [heq]
  by_cases h1 : inBounds size (x + d.1) (y + d.2) = true
  · rw [if_neg (not_not_intro h1)]
    by_cases h2 : getCell board (x + d.1) (y + d.2) = opp
    · rw [if_neg (not_not_intro h2)]
      by_cases h3 : (x + d.1, y + d.2) ∈ acc.1
      · rw [if_pos h3]
        refine unchanged ?_
        intro q hc hg
        obtain ⟨d', hd', hc', hg'⟩ := (hA _).mp h3
        have he2 := @grp_set_eq size board opp (x + d'.1, y + d'.2) (x + d.1, y + d.2)
          hc'.1 hc'.2.1 h1 h2 hg'
        exact (hA q).mpr ⟨d', hd', hc', (he2 q).mp hg⟩
      · rw [if_neg h3]
        by_cases h4 : acc.2.any (fun g =>
            listSetEq g (get_group_at size board (x + d.1) (y + d.2) opp)) = true
        · rw [if_pos h4]
          refine unchanged ?_
          intro q hc hg
          obtain ⟨g, hgmem, hgeq⟩ := List.any_eq_true.mp h4
          obtain ⟨d2, hd2, hb2, hc2, hgg⟩ := hB g hgmem
          have hiff : ∀ p, p ∈ get_group_at size board (x + d2.1) (y + d2.2) opp ↔
              p ∈ get_group_at size board (x + d.1) (y + d.2) opp := by
            have := listSetEq_iff.mp hgeq
            rw [hgg] at this
            exact this
          have hghle : group_has_liberty_excluding size board
              (get_group_at size board (x + d2.1) (y + d2.2) opp) opp x y = false := by
            rw [ghle_congr size board opp x y hiff]
            exact hc.2.2
          exact (hA q).mpr ⟨d2, hd2, ⟨hb2, hc2, hghle⟩, (hiff q).mpr hg⟩
        · rw [if_neg h4]
          by_cases h5 : group_has_liberty_excluding size board
              (get_group_at size board (x + d.1) (y + d.2) opp) opp x y = true
          · rw [if_pos h5]
            constructor
            · intro q
              constructor
              · intro hq
                obtain ⟨d', hd', hc, hg⟩ := (hA q).mp hq
                exact ⟨d', List.mem_append_left _ hd', hc, hg⟩
              · rintro ⟨d', hd', hc, hg⟩
                rcases List.mem_append.mp hd' with hd' | hd'
                · exact (hA q).mpr ⟨d', hd', hc, hg⟩
                · rw [List.mem_singleton] at hd'
                  subst hd'
                  rw [hc.2.2] at h5
                  exact absurd h5 Bool.false_ne_true
            · intro g hg
              rcases List.mem_cons.mp hg with hg | hg
              · exact ⟨d, List.mem_append_right _ (List.mem_singleton_self d), h1, h2, hg⟩
              · obtain ⟨d', hd', rest⟩ := hB g hg
                exact ⟨d', List.mem_append_left _ hd', rest⟩
          · rw [if_neg h5]
            have h5f : group_has_liberty_excluding size board
                (get_group_at size board (x + d.1) (y + d.2) opp) opp x y = false := by
              revert h5
              cases group_has_liberty_excluding size board
                (get_group_at size board (x + d.1) (y + d.2) opp) opp x y <;> simp
            have hcap : scanCap size board x y opp d := ⟨h1, h2, h5f⟩
            constructor
            · intro q
              constructor
              · intro hq
                rcases List.mem_append.mp hq with hq | hq
                · obtain ⟨d', hd', hc, hg⟩ := (hA q).mp hq
                  exact ⟨d', List.mem_append_left _ hd', hc, hg⟩
                · exact ⟨d, List.mem_append_right _ (List.mem_singleton_self d), hcap,
                    (List.mem_filter.mp hq).1⟩
              · rintro ⟨d', hd', hc, hg⟩
                rcases List.mem_append.mp hd' with hd' | hd'
                · exact List.mem_append_left _ ((hA q).mpr ⟨d', hd', hc, hg⟩)
                · rw [List.mem_singleton] at hd'
                  subst hd'
                  by_cases hin : q ∈ acc.1
                  · exact List.mem_append_left _ hin
                  · exact List.mem_append_right _
                      (List.mem_filter.mpr ⟨hg, by simpa using hin⟩)
            · intro g hg
              rcases List.mem_cons.mp hg with hg | hg
              · exact ⟨d, List.mem_append_right _ (List.mem_singleton_self d), h1, h2, hg⟩
              · obtain ⟨d', hd', rest⟩ := hB g hg
                exact ⟨d', List.mem_append_left _ hd', rest⟩
    · rw [if_pos h2]
      refine unchanged ?_
      intro q hc _
      exact absurd hc.2.1 h2
  · rw [if_pos h1]
    refine unchanged ?_
    intro q hc _
    exact absurd hc.1 h1

theorem scanInv_nil (size : Nat) (board : List (List Nat)) (x y : Int) (opp : Nat) :
    ScanInv size board x y opp [] ([], []) := by
  constructor
  · intro q
    simp
  · intro g hg
    exact absurd hg (List.not_mem_nil g)

theorem scanFold_inv (size : Nat) (board : List (List Nat)) (x y : Int) (opp : Nat)
    (ds : List (Int × Int)) :
    ∀ (ps : List (Int × Int)) (acc : List (Int × Int) × List (List (Int × Int))),
      ScanInv size board x y opp ps acc →
      ScanInv size board x y opp (ps ++ ds)
        (ds.foldl (captureScanStep size board x y opp) acc) := by
  induction ds with
  | nil =>
    intro ps acc h
    simpa using h
  | cons d ds ih =>
    intro ps acc h
    have h3 := ih (ps ++ [d]) (captureScanStep size board x y opp acc d) (scanStep_inv h d)
    rw [List.append_assoc] at h3
    exact h3

/-- Characterisation of the captured set of `_find_and_capture_stones`: a cell
is captured exactly when it lies in the group of some in-bounds opponent
neighbour of `(x, y)` that has no liberty besides `(x, y)`. -/
theorem mem_find_and_capture {size : Nat} {board : List (List Nat)} {x y : Int}
    {opp : Nat} {q : Int × Int} :
    q ∈ (find_and_capture_stones size board x y opp).1 ↔
      ∃ d ∈ adjSteps, scanCap size board x y opp d ∧
        q ∈ get_group_at size board (x + d.1) (y + d.2) opp :=
  ((scanFold_inv size board x y opp adjSteps [] ([], [])
    (scanInv_nil size board x y opp)).1 q)

theorem find_and_capture_board (size : Nat) (board : List (List Nat)) (x y : Int)
    (opp : Nat) :
    (find_and_capture_stones size board x y opp).2 =
      (find_and_capture_stones size board x y opp).1.foldl
        (fun b p => setCell b p.1 p.2 0) board := rfl

theorem mem_capture_props {size : Nat} {board : List (List Nat)} {x y : Int}
    {opp : Nat} {q : Int × Int}
    (h : q ∈ (find_and_capture_stones size board x y opp).1) :
    inBounds size q.1 q.2 = true ∧ getCell board q.1 q.2 = opp := by
  obtain ⟨d, _, hc, hq⟩ := mem_find_and_capture.mp h
  exact @get_group_at_mem_props size board opp (x + d.1, y + d.2) q hc.1 hc.2.1 hq

/-- The captured set is saturated under groups: with a captured stone its whole
group is captured. -/
theorem capture_saturated {size : Nat} {board : List (List Nat)} {x y : Int}
    {opp : Nat} {q r : Int × Int}
    (hq : q ∈ (find_and_capture_stones size board x y opp).1)
    (hr : r ∈ get_group_at size board q.1 q.2 opp) :
    r ∈ (find_and_capture_stones size board x y opp).1 := by
  obtain ⟨d, hd, hc, hq'⟩ := mem_find_and_capture.mp hq
  have hqp := @get_group_at_mem_props size board opp (x + d.1, y + d.2) q hc.1 hc.2.1 hq'
  have he := @grp_set_eq size board opp (x + d.1, y + d.2) q hc.1 hc.2.1 hqp.1 hqp.2 hq'
  exact mem_find_and_capture.mpr ⟨d, hd, hc, (he r).mp hr⟩

theorem scanCap_mem_capture {size : Nat} {board : List (List Nat)} {x y : Int}
    {opp : Nat} {d : Int × Int} (hd : d ∈ adjSteps)
    (hc : scanCap size board x y opp d) :
    (x + d.1, y + d.2) ∈ (find_and_capture_stones size board x y opp).1 :=
  mem_find_and_capture.mpr ⟨d, hd, hc,
    (mem_get_group_at hc.1 hc.2.1).mpr Relation.ReflTransGen.refl⟩

/-! ### Structure of a successful `place_stone` -/

theorem is_valid_move_dest {s : GoBoard} {x y : Int} (h : is_valid_move s x y = true) :
    inBounds s.size x y = true ∧ getCell s.board x y = 0 ∧
      (can_capture_anything s.size (setCell s.board x y s.current_player) x y
          (3 - s.current_player) = true ∨
        has_any_liberty s.size (setCell s.board x y s.current_player) x y
          s.current_player = true) := by
  obtain ⟨hb, he, _⟩ := is_valid_move_checks h
  refine ⟨hb, he, ?_⟩
  unfold is_valid_move at h
  rw [hb, if_neg (not_not_intro rfl), he, if_neg (not_not_intro rfl)] at h
  by_cases hk : (match s.ko_point with
      | some k => decide ((x, y) = k)
      | none => false) = true
  · rw [if_pos hk] at h
    cases h
  · rw [if_neg hk] at h
    have h2 : (if ¬ can_capture_anything s.size (setCell s.board x y s.current_player)
          x y (3 - s.current_player) = true then
        (if ¬ has_any_liberty s.size (setCell s.board x y s.current_player) x y
            s.current_player = true then false else true)
      else true) = true := h
    by_cases hc : can_capture_anything s.size (setCell s.board x y s.current_player)
        x y (3 - s.current_player) = true
    · exact Or.inl hc
    · rw [if_pos hc] at h2
      by_cases hl : has_any_liberty s.size (setCell s.board x y s.current_player) x y
          s.current_player = true
      · exact Or.inr hl
      · rw [if_pos hl] at h2
        cases h2

theorem getCell_le_two {s : GoBoard} (hwf : WF s) (u v : Int) :
    getCell s.board u v ≤ 2 := by
  unfold getCell
  simp only [List.getD_eq_getElem?_getD]
  rcases h1 : s.board[v.toNat]? with _ | row
  · simp
  · simp only [Option.getD_some]
    rcases h2 : row[u.toNat]? with _ | val
    · simp
    · simp only [Option.getD_some]
      have hrow : row ∈ s.board := List.getElem?_mem h1
      have hval : val ∈ row := List.getElem?_mem h2
      exact (hwf.2.1 row hrow).2 val hval

theorem getCell_init (n : Nat) (u v : Int) : getCell (GoBoard.init n).board u v = 0 := by
  unfold getCell GoBoard.init
  simp only [List.getD_eq_getElem?_getD]
  rcases h1 : (List.replicate n (List.replicate n (0 : Nat)))[v.toNat]? with _ | row
  · simp
  · simp only [Option.getD_some]
    have hrow : row = List.replicate n 0 :=
      List.eq_of_mem_replicate (List.getElem?_mem h1)
    subst hrow
    rcases h2 : (List.replicate n (0 : Nat))[u.toNat]? with _ | val
    · simp
    · simp only [Option.getD_some]
      exact List.eq_of_mem_replicate (List.getElem?_mem h2)

theorem getCell_toNat (b : List (List Nat)) (u v : Int) :
    getCell b u v = getCell b (u.toNat : Int) (v.toNat : Int) := by
  unfold getCell
  rw [Int.toNat_natCast, Int.toNat_natCast]

theorem getCell_oob {size : Nat} {b : List (List Nat)} (hlen : b.length = size)
    (hrows : ∀ row ∈ b, row.length = size) {i j : Nat} (h : size ≤ i ∨ size ≤ j) :
    getCell b (i : Int) (j : Int) = 0 := by
  unfold getCell
  rw [Int.toNat_natCast, Int.toNat_natCast]
  simp only [List.getD_eq_getElem?_getD]
  rcases h1 : b[j]? with _ | row
  · simp
  · simp only [Option.getD_some]
    have hjlt : j < size := by
      rw [← hlen]
      exact (List.getElem?_eq_some_iff.mp h1).1
    have hrl : row.length = size := hrows row (List.getElem?_mem h1)
    have hige : size ≤ i := by omega
    rw [List.getElem?_eq_none (by omega)]
    simp

theorem place_stone_size (s : GoBoard) (x y : Int) :
    (place_stone s x y).2.size = s.size := by
  unfold place_stone
  split <;> rfl

theorem place_stone_player {s : GoBoard} {x y : Int} (hv : is_valid_move s x y = true) :
    (place_stone s x y).2.current_player = 3 - s.current_player := by
  unfold place_stone
  rw [hv, if_neg (not_not_intro rfl)]

theorem place_stone_board {s : GoBoard} {x y : Int} (hv : is_valid_move s x y = true) :
    (place_stone s x y).2.board =
      (find_and_capture_stones s.size (setCell s.board x y s.current_player) x y
        (3 - s.current_player)).2 := by
  unfold place_stone
  rw [hv, if_neg (not_not_intro rfl)]

/-- Cell values after a successful `place_stone`: captured cells are cleared,
the played cell holds the mover's stone, everything else is untouched. -/
theorem place_stone_cells {s : GoBoard} (hwf : WF s) {x y : Int}
    (hv : is_valid_move s x y = true) {u v : Int} (huv : inBounds s.size u v = true) :
    getCell (place_stone s x y).2.board u v =
      if (u, v) ∈ (find_and_capture_stones s.size (setCell s.board x y s.current_player)
          x y (3 - s.current_player)).1 then 0
      else if (u, v) = (x, y) then s.current_player
      else getCell s.board u v := by
  obtain ⟨hb, he, _⟩ := is_valid_move_checks hv
  obtain ⟨hlen, hrows0, hcp⟩ := hwf
  have hrows : ∀ row ∈ s.board, row.length = s.size := fun r hr => (hrows0 r hr).1
  have hd1 := setCell_dims hlen hrows x y s.current_player
  have hSb : ∀ p ∈ (find_and_capture_stones s.size (setCell s.board x y s.current_player)
      x y (3 - s.current_player)).1, inBounds s.size p.1 p.2 = true :=
    fun p hp => (mem_capture_props hp).1
  rw [place_stone_board hv, find_and_capture_board, getCell_foldCapture _ _ hd1.1 hd1.2 hSb huv]
  by_cases hm : (u, v) ∈ (find_and_capture_stones s.size
      (setCell s.board x y s.current_player) x y (3 - s.current_player)).1
  · rw [if_pos hm, if_pos hm]
  · rw [if_neg hm, if_neg hm]
    exact getCell_setCell hlen hrows hb huv s.current_player

/-! ### Liberty preservation across a successful `place_stone` -/

theorem reaches_of_cell_eq {size : Nat} {b b2 : List (List Nat)} {c : Nat}
    {st : Int × Int}
    (h : ∀ q : Int × Int, reaches size b c st q → getCell b2 q.1 q.2 = c)
    {r : Int × Int} (hr : reaches size b c st r) : reaches size b2 c st r := by
  induction hr with
  | refl => exact Relation.ReflTransGen.refl
  | tail h1 hstep ih =>
    exact Relation.ReflTransGen.tail ih
      ⟨hstep.1, hstep.2.1, h _ (Relation.ReflTransGen.tail h1 hstep)⟩

theorem mem_get_group_at2 {size : Nat} {board : List (List Nat)} {player : Nat}
    {u v : Int} {q : Int × Int} (hb : inBounds size u v = true)
    (hc : getCell board u v = player) :
    q ∈ get_group_at size board u v player ↔ reaches size board player (u, v) q :=
  @mem_get_group_at size board player (u, v) q hb hc

theorem reaches_props2 {size : Nat} {board : List (List Nat)} {c : Nat} {u v : Int}
    {q : Int × Int} (hb : inBounds size u v = true) (hc : getCell board u v = c)
    (h : reaches size board c (u, v) q) :
    inBounds size q.1 q.2 = true ∧ getCell board q.1 q.2 = c :=
  (@reaches_symm_aux size board c (u, v) q hb hc h).1

theorem grp_set_eq2 {size : Nat} {board : List (List Nat)} {opp : Nat} {u v : Int}
    {p : Int × Int} (h1b : inBounds size u v = true) (h1c : getCell board u v = opp)
    (h2b : inBounds size p.1 p.2 = true) (h2c : getCell board p.1 p.2 = opp)
    (h : p ∈ get_group_at size board u v opp) :
    ∀ r, r ∈ get_group_at size board p.1 p.2 opp ↔
      r ∈ get_group_at size board u v opp :=
  @grp_set_eq size board opp (u, v) p h1b h1c h2b h2c h

/-- A successful `place_stone` on a well-formed board on which every group has
a liberty yields a board on which every group again has a liberty. -/
theorem place_preserves_LibertyInv {s : GoBoard} (hwf : WF s) (hinv : LibertyInv s)
    (x y : Int) : LibertyInv (place_stone s x y).2 := by
  by_cases hv : is_valid_move s x y = true
  · obtain ⟨hb, he, hdisj⟩ := is_valid_move_dest hv
    obtain ⟨hlen, hrows0, hcpm⟩ := (id hwf : WF s)
    have hrows : ∀ row ∈ s.board, row.length = s.size := fun r hr => (hrows0 r hr).1
    have hcp0 : s.current_player ≠ 0 := by rcases hcpm with h | h <;> omega
    have hopp0 : 3 - s.current_player ≠ 0 := by
      rcases hcpm with h | h <;> rw [h] <;> decide
    have hoppcp : 3 - s.current_player ≠ s.current_player := by
      rcases hcpm with h | h <;> rw [h] <;> decide
    have hd1 := setCell_dims hlen hrows x y s.current_player
    have hcellb1 : ∀ u v : Int, inBounds s.size u v = true →
        getCell (setCell s.board x y s.current_player) u v =
          if (u, v) = (x, y) then s.current_player else getCell s.board u v :=
      fun u v huv => getCell_setCell hlen hrows hb huv s.current_player
    have hb1xy : getCell (setCell s.board x y s.current_player) x y =
        s.current_player := by
      rw [hcellb1 x y hb, if_pos rfl]
    have hSb1 : ∀ p ∈ (find_and_capture_stones s.size
        (setCell s.board x y s.current_player) x y (3 - s.current_player)).1,
        inBounds s.size p.1 p.2 = true ∧
          getCell (setCell s.board x y s.current_player) p.1 p.2 =
            3 - s.current_player :=
      fun p hp => mem_capture_props hp
    have hxyS : ((x, y) : Int × Int) ∉ (find_and_capture_stones s.size
        (setCell s.board x y s.current_player) x y (3 - s.current_player)).1 := by
      intro hmem
      have h2 := (hSb1 _ hmem).2
      rw [hb1xy] at h2
      exact hoppcp h2.symm
    have hcell2 : ∀ u v : Int, inBounds s.size u v = true →
        getCell (place_stone s x y).2.board u v =
          if (u, v) ∈ (find_and_capture_stones s.size
              (setCell s.board x y s.current_player) x y (3 - s.current_player)).1
            then 0
          else getCell (setCell s.board x y s.current_player) u v := by
      intro u v huv
      rw [place_stone_board hv, find_and_capture_board,
        getCell_foldCapture _ _ hd1.1 hd1.2 (fun p hp => (hSb1 p hp).1) huv]
    have hb2xy : getCell (place_stone s x y).2.board x y = s.current_player := by
      rw [hcell2 x y hb, if_neg hxyS, hb1xy]
    intro u v huv0 hne0
    rw [place_stone_size] at huv0
    rw [place_stone_size]
    have hcv2 := hcell2 u v huv0
    have huvS : ((u, v) : Int × Int) ∉ (find_and_capture_stones s.size
        (setCell s.board x y s.current_player) x y (3 - s.current_player)).1 := by
      intro hmem
      exact hne0 (by rw [hcv2, if_pos hmem])
    rw [if_neg huvS] at hcv2
    have hwf2 := WF_place s x y hwf
    have hle2 := getCell_le_two hwf2 u v
    have hccases : getCell (place_stone s x y).2.board u v = s.current_player ∨
        getCell (place_stone s x y).2.board u v = 3 - s.current_player := by
      rcases hcpm with h | h <;> rw [h] <;> omega
    rcases hccases with hcuv | hcuv
    · -- the cell holds the mover's colour
      rw [hcuv]
      have hb1uv : getCell (setCell s.board x y s.current_player) u v =
          s.current_player := hcv2.symm.trans hcuv
      by_cases hA1 : ((x, y) : Int × Int) ∈
          get_group_at s.size (place_stone s x y).2.board u v s.current_player
      · -- the group contains the new stone
        by_cases hS : (find_and_capture_stones s.size
            (setCell s.board x y s.current_player) x y (3 - s.current_player)).1 = []
        · -- nothing captured: the whole board is the temporary board
          have hb2b1 : (place_stone s x y).2.board =
              setCell s.board x y s.current_player := by
            rw [place_stone_board hv, find_and_capture_board, hS]
            rfl
          rcases hdisj with hcap | hlib
          · exfalso
            obtain ⟨d, hd, hdc⟩ := (can_capture_anything_iff s.size
              (setCell s.board x y s.current_player) x y (3 - s.current_player)).mp hcap
            have hmem := scanCap_mem_capture hd ⟨hdc.1, hdc.2.1, hdc.2.2⟩
            rw [hS] at hmem
            exact absurd hmem (List.not_mem_nil _)
          · rw [hb2b1] at hA1
            unfold has_any_liberty at hlib ⊢
            rw [hb2b1]
            rw [group_has_liberty_iff] at hlib ⊢
            obtain ⟨p, hp, d, hd, hpb, hpc⟩ := hlib
            refine ⟨p, ?_, d, hd, hpb, hpc⟩
            exact (grp_set_eq2 huv0 hb1uv hb hb1xy hA1 p).mp hp
        · -- a capture happened: a captured neighbour of `(x, y)` is now empty
          obtain ⟨q0, hq0⟩ := List.exists_mem_of_ne_nil _ hS
          obtain ⟨d, hd, hdc, _⟩ := mem_find_and_capture.mp hq0
          have hnbS := scanCap_mem_capture hd hdc
          unfold has_any_liberty
          rw [group_has_liberty_iff]
          refine ⟨(x, y), hA1, d, hd, hdc.1, ?_⟩
          show getCell (place_stone s x y).2.board (x + d.1) (y + d.2) = 0
          rw [hcell2 _ _ hdc.1, if_pos hnbS]
      · -- the group avoids the new stone: it is a group of the old board
        have hmemG : ∀ r : Int × Int,
            reaches s.size (place_stone s x y).2.board s.current_player (u, v) r →
            r ≠ (x, y) := by
          intro r hr hrxy
          apply hA1
          refine (mem_get_group_at2 huv0 hcuv).mpr ?_
          rw [← hrxy]
          exact hr
        have huvxy : ((u, v) : Int × Int) ≠ (x, y) :=
          hmemG (u, v) Relation.ReflTransGen.refl
        have hb0uv : getCell s.board u v = s.current_player := by
          have h3 := hb1uv
          rw [hcellb1 u v huv0, if_neg huvxy] at h3
          exact h3
        have hfrom0 : ∀ r, reaches s.size s.board s.current_player (u, v) r →
            reaches s.size (place_stone s x y).2.board s.current_player (u, v) r := by
          intro r hr
          refine reaches_of_cell_eq ?_ hr
          intro q hq
          have hqp := reaches_props2 huv0 hb0uv hq
          have hqx : ((q.1, q.2) : Int × Int) ≠ (x, y) := by
            intro hh
            injection hh with e1 e2
            have h4 := hqp.2
            rw [e1, e2, he] at h4
            exact hcp0 h4.symm
          have hqS : ((q.1, q.2) : Int × Int) ∉ (find_and_capture_stones s.size
              (setCell s.board x y s.current_player) x y (3 - s.current_player)).1 := by
            intro hmem
            have h5 := (hSb1 _ hmem).2
            rw [hcellb1 q.1 q.2 hqp.1, if_neg hqx] at h5
            exact hoppcp (h5.symm.trans hqp.2)
          rw [hcell2 q.1 q.2 hqp.1, if_neg hqS, hcellb1 q.1 q.2 hqp.1, if_neg hqx]
          exact hqp.2
        have hlib0 := hinv u v huv0 (by rw [hb0uv]; exact hcp0)
        rw [hb0uv] at hlib0
        unfold has_any_liberty at hlib0 ⊢
        rw [group_has_liberty_iff] at hlib0 ⊢
        obtain ⟨p, hp, dd, hdd, hlb, hlc⟩ := hlib0
        have hpG : p ∈ get_group_at s.size (place_stone s x y).2.board u v
            s.current_player :=
          (mem_get_group_at2 huv0 hcuv).mpr
            (hfrom0 p ((mem_get_group_at2 huv0 hb0uv).mp hp))
        refine ⟨p, hpG, dd, hdd, hlb, ?_⟩
        have hlxy : ((p.1 + dd.1, p.2 + dd.2) : Int × Int) ≠ (x, y) := by
          intro hh
          apply hA1
          refine (mem_get_group_at2 huv0 hcuv).mpr ?_
          refine Relation.ReflTransGen.tail ((mem_get_group_at2 huv0 hcuv).mp hpG) ?_
          exact ⟨⟨dd, hdd, hh.symm⟩, hb, hb2xy⟩
        have hlS : ((p.1 + dd.1, p.2 + dd.2) : Int × Int) ∉ (find_and_capture_stones
            s.size (setCell s.board x y s.current_player) x y
            (3 - s.current_player)).1 := by
          intro hmem
          have h8 := (hSb1 _ hmem).2
          rw [hcellb1 _ _ hlb, if_neg hlxy, hlc] at h8
          exact hopp0 h8.symm
        rw [hcell2 _ _ hlb, if_neg hlS, hcellb1 _ _ hlb, if_neg hlxy]
        exact hlc
    · -- the cell holds the opponent's colour: its group survived the capture
      rw [hcuv]
      have hb1uv : getCell (setCell s.board x y s.current_player) u v =
          3 - s.current_player := hcv2.symm.trans hcuv
      have huvxy : ((u, v) : Int × Int) ≠ (x, y) := by
        intro hh
        injection hh with e1 e2
        rw [e1, e2, hb1xy] at hb1uv
        exact hoppcp hb1uv.symm
      have hb0uv : getCell s.board u v = 3 - s.current_player := by
        have h3 := hb1uv
        rw [hcellb1 u v huv0, if_neg huvxy] at h3
        exact h3
      have hcell01 : ∀ q : Int × Int, inBounds s.size q.1 q.2 = true →
          (getCell s.board q.1 q.2 = 3 - s.current_player ↔
            getCell (setCell s.board x y s.current_player) q.1 q.2 =
              3 - s.current_player) := by
        intro q hq
        rw [hcellb1 q.1 q.2 hq]
        by_cases hh : ((q.1, q.2) : Int × Int) = (x, y)
        · rw [if_pos hh]
          injection hh with e1 e2
          rw [e1, e2, he]
          constructor
          · intro h0
            exact absurd h0.symm hopp0
          · intro h0
            exact absurd h0.symm hoppcp
        · rw [if_neg hh]
      have hdisjS : ∀ r, r ∈ get_group_at s.size
          (setCell s.board x y s.current_player) u v (3 - s.current_player) →
          r ∉ (find_and_capture_stones s.size (setCell s.board x y s.current_player)
            x y (3 - s.current_player)).1 := by
        intro r hr hrS
        apply huvS
        have hrp := reaches_props2 huv0 hb1uv ((mem_get_group_at2 huv0 hb1uv).mp hr)
        have h10 : ((u, v) : Int × Int) ∈ get_group_at s.size
            (setCell s.board x y s.current_player) r.1 r.2 (3 - s.current_player) :=
          (mem_get_group_at hrp.1 hrp.2).mpr
            (reaches_symm huv0 hb1uv ((mem_get_group_at2 huv0 hb1uv).mp hr))
        exact capture_saturated hrS h10
      have hfrom1 : ∀ r, reaches s.size (setCell s.board x y s.current_player)
          (3 - s.current_player) (u, v) r →
          reaches s.size (place_stone s x y).2.board (3 - s.current_player) (u, v) r := by
        intro r hr
        refine reaches_of_cell_eq ?_ hr
        intro q hq
        have hqp := reaches_props2 huv0 hb1uv hq
        have hqS : ((q.1, q.2) : Int × Int) ∉ (find_and_capture_stones s.size
            (setCell s.board x y s.current_player) x y (3 - s.current_player)).1 :=
          hdisjS (q.1, q.2) ((mem_get_group_at2 huv0 hb1uv).mpr hq)
        rw [hcell2 q.1 q.2 hqp.1, if_neg hqS]
        exact hqp.2
      by_cases hgl : group_has_liberty_excluding s.size
          (setCell s.board x y s.current_player)
          (get_group_at s.size (setCell s.board x y s.current_player) u v
            (3 - s.current_player)) (3 - s.current_player) x y = true
      · -- a liberty besides `(x, y)` exists already on the temporary board
        obtain ⟨p, hp, dd, hdd, _, hlb, hlc⟩ :=
          (group_has_liberty_excluding_iff _ _ _ _ _ _).mp hgl
        unfold has_any_liberty
        rw [group_has_liberty_iff]
        have hpG : p ∈ get_group_at s.size (place_stone s x y).2.board u v
            (3 - s.current_player) :=
          (mem_get_group_at2 huv0 hcuv).mpr
            (hfrom1 p ((mem_get_group_at2 huv0 hb1uv).mp hp))
        refine ⟨p, hpG, dd, hdd, hlb, ?_⟩
        have hlS : ((p.1 + dd.1, p.2 + dd.2) : Int × Int) ∉ (find_and_capture_stones
            s.size (setCell s.board x y s.current_player) x y
            (3 - s.current_player)).1 := by
          intro hmem
          have h8 := (hSb1 _ hmem).2
          rw [hlc] at h8
          exact hopp0 h8.symm
        rw [hcell2 _ _ hlb, if_neg hlS]
        exact hlc
      · -- otherwise the group's only liberty cannot be `(x, y)`: it would have
        -- been captured, contradicting that this stone survived
        have hgl' : group_has_liberty_excluding s.size
            (setCell s.board x y s.current_player)
            (get_group_at s.size (setCell s.board x y s.current_player) u v
              (3 - s.current_player)) (3 - s.current_player) x y = false := by
          revert hgl
          cases group_has_liberty_excluding s.size
            (setCell s.board x y s.current_player)
            (get_group_at s.size (setCell s.board x y s.current_player) u v
              (3 - s.current_player)) (3 - s.current_player) x y <;> simp
        have hnadj : ∀ p, p ∈ get_group_at s.size
            (setCell s.board x y s.current_player) u v (3 - s.current_player) →
            ¬ adjacentP (x, y) p := by
          intro p hp hadj
          obtain ⟨d', hd', hpd⟩ := hadj
          have hpp := reaches_props2 huv0 hb1uv ((mem_get_group_at2 huv0 hb1uv).mp hp)
          have hpe := grp_set_eq2 huv0 hb1uv hpp.1 hpp.2 hp
          have hglp : group_has_liberty_excluding s.size
              (setCell s.board x y s.current_player)
              (get_group_at s.size (setCell s.board x y s.current_player) p.1 p.2
                (3 - s.current_player)) (3 - s.current_player) x y = false := by
            rw [ghle_congr _ _ _ _ _ hpe]
            exact hgl'
          subst hpd
          have hcapd : scanCap s.size (setCell s.board x y s.current_player) x y
              (3 - s.current_player) d' := ⟨hpp.1, hpp.2, hglp⟩
          exact hdisjS _ hp (scanCap_mem_capture hd' hcapd)
        have h01 : ∀ r, r ∈ get_group_at s.size s.board u v (3 - s.current_player) ↔
            r ∈ get_group_at s.size (setCell s.board x y s.current_player) u v
              (3 - s.current_player) := by
          intro r
          rw [mem_get_group_at2 huv0 hb0uv, mem_get_group_at2 huv0 hb1uv]
          constructor
          · intro hr
            refine reaches_of_cell_eq ?_ hr
            intro q hq
            have hqp := reaches_props2 huv0 hb0uv hq
            exact (hcell01 q hqp.1).mp hqp.2
          · intro hr
            refine reaches_of_cell_eq ?_ hr
            intro q hq
            have hqp := reaches_props2 huv0 hb1uv hq
            exact (hcell01 q hqp.1).mpr hqp.2
        have hlib0 := hinv u v huv0 (by rw [hb0uv]; exact hopp0)
        rw [hb0uv] at hlib0
        unfold has_any_liberty at hlib0 ⊢
        rw [group_has_liberty_iff] at hlib0 ⊢
        obtain ⟨p, hp, dd, hdd, hlb, hlc⟩ := hlib0
        have hp1 : p ∈ get_group_at s.size (setCell s.board x y s.current_player) u v
            (3 - s.current_player) := (h01 p).mp hp
        have hlxy : ((p.1 + dd.1, p.2 + dd.2) : Int × Int) ≠ (x, y) := by
          intro hh
          exact hnadj p hp1 (adjacentP_symm ⟨dd, hdd, hh.symm⟩)
        have hlc1 : getCell (setCell s.board x y s.current_player) (p.1 + dd.1)
            (p.2 + dd.2) = 0 := by
          rw [hcellb1 _ _ hlb, if_neg hlxy]
          exact hlc
        have hlS : ((p.1 + dd.1, p.2 + dd.2) : Int × Int) ∉ (find_and_capture_stones
            s.size (setCell s.board x y s.current_player) x y
            (3 - s.current_player)).1 := by
          intro hmem
          have h8 := (hSb1 _ hmem).2
          rw [hlc1] at h8
          exact hopp0 h8.symm
        have hpG : p ∈ get_group_at s.size (place_stone s x y).2.board u v
            (3 - s.current_player) :=
          (mem_get_group_at2 huv0 hcuv).mpr
            (hfrom1 p ((mem_get_group_at2 huv0 hb1uv).mp hp1))
        refine ⟨p, hpG, dd, hdd, hlb, ?_⟩
        rw [hcell2 _ _ hlb, if_neg hlS]
        exact hlc1
  · have hnoop : (place_stone s x y).2 = s := by
      unfold place_stone
      rw [if_pos hv]
    rw [hnoop]
    exact hinv

theorem Reachable_LibertyInv {n : Nat} {s : GoBoard} (hr : Reachable n s) :
    LibertyInv s := by
  induction hr with
  | init =>
    intro u v _ hne
    exact absurd (getCell_init n u v) hne
  | place x y hr ih => exact place_preserves_LibertyInv (Reachable_WF hr) ih x y
  | pass hr ih => exact ih

theorem place_stone_xy {s : GoBoard} (hwf : WF s) {x y : Int}
    (hv : is_valid_move s x y = true) :
    getCell (place_stone s x y).2.board x y = s.current_player := by
  obtain ⟨hb, he, _⟩ := is_valid_move_dest hv
  obtain ⟨hlen, hrows0, hcpm⟩ := (id hwf : WF s)
  have hrows : ∀ row ∈ s.board, row.length = s.size := fun r hr => (hrows0 r hr).1
  have hoppcp : 3 - s.current_player ≠ s.current_player := by
    rcases hcpm with h | h <;> rw [h] <;> decide
  have hb1xy : getCell (setCell s.board x y s.current_player) x y =
      s.current_player := by
    rw [getCell_setCell hlen hrows hb hb s.current_player, if_pos rfl]
  have hxyS : ((x, y) : Int × Int) ∉ (find_and_capture_stones s.size
      (setCell s.board x y s.current_player) x y (3 - s.current_player)).1 := by
    intro hmem
    have h2 := (mem_capture_props hmem).2
    rw [hb1xy] at h2
    exact hoppcp h2.symm
  rw [place_stone_cells hwf hv hb, if_neg hxyS, if_pos rfl]

theorem place_stone_keeps_mover {s : GoBoard} (hwf : WF s) {x y : Int}
    (hv : is_valid_move s x y = true) (u v : Int)
    (hcp : getCell s.board u v = s.current_player) :
    getCell (place_stone s x y).2.board u v = s.current_player := by
  obtain ⟨hb, he, _⟩ := is_valid_move_dest hv
  obtain ⟨hlen, hrows0, hcpm⟩ := (id hwf : WF s)
  have hrows : ∀ row ∈ s.board, row.length = s.size := fun r hr => (hrows0 r hr).1
  have hcp0 : s.current_player ≠ 0 := by rcases hcpm with h | h <;> omega
  have hoppcp : 3 - s.current_player ≠ s.current_player := by
    rcases hcpm with h | h <;> rw [h] <;> decide
  rw [getCell_toNat] at hcp
  rw [getCell_toNat (place_stone s x y).2.board]
  by_cases hin : u.toNat < s.size ∧ v.toNat < s.size
  · have huv : inBounds s.size (u.toNat : Int) (v.toNat : Int) = true := by
      simp only [inBounds, Bool.and_eq_true, decide_eq_true_eq]
      refine ⟨⟨⟨?_, ?_⟩, ?_⟩, ?_⟩ <;> omega
    have hne1 : (((u.toNat : Int), (v.toNat : Int)) : Int × Int) ≠ (x, y) := by
      intro hh
      injection hh with e1 e2
      rw [e1, e2, he] at hcp
      exact hcp0 hcp.symm
    have hb1c : getCell (setCell s.board x y s.current_player) (u.toNat : Int)
        (v.toNat : Int) = s.current_player := by
      rw [getCell_setCell hlen hrows hb huv s.current_player, if_neg hne1]
      exact hcp
    have hnS : (((u.toNat : Int), (v.toNat : Int)) : Int × Int) ∉
        (find_and_capture_stones s.size (setCell s.board x y s.current_player) x y
          (3 - s.current_player)).1 := by
      intro hmem
      have h2 := (mem_capture_props hmem).2
      rw [hb1c] at h2
      exact hoppcp h2.symm
    rw [place_stone_cells hwf hv huv, if_neg hnS, if_neg hne1]
    exact hcp
  · exfalso
    have hor : s.size ≤ u.toNat ∨ s.size ≤ v.toNat := by omega
    rw [getCell_oob hlen hrows hor] at hcp
    exact hcp0 hcp.symm

/-- C10: in every board state reachable from a fresh board through
`place_stone` and `pass_move`, every stone group on the board has at least one
liberty; moreover a successful `place_stone` never removes stones of the
mover's colour, and after it returns, the played cell holds the mover's stone
and the mover's own group has at least one liberty. -/
theorem liberty_invariant {n : Nat} {s : GoBoard} (hr : Reachable n s) :
    LibertyInv s ∧
    ∀ x y : Int, is_valid_move s x y = true →
      getCell (place_stone s x y).2.board x y = s.current_player ∧
      (∀ u v : Int, getCell s.board u v = s.current_player →
        getCell (place_stone s x y).2.board u v = s.current_player) ∧
      has_any_liberty (place_stone s x y).2.size (place_stone s x y).2.board x y
        s.current_player = true := by
  have hwf : WF s := Reachable_WF hr
  have hinv : LibertyInv s := Reachable_LibertyInv hr
  refine ⟨hinv, ?_⟩
  intro x y hv
  have hcp0 : s.current_player ≠ 0 := by rcases hwf.2.2 with h | h <;> omega
  have hxy2 := place_stone_xy hwf hv
  refine ⟨hxy2, fun u v hcp => place_stone_keeps_mover hwf hv u v hcp, ?_⟩
  have hb := (is_valid_move_dest hv).1
  have hlib := place_preserves_LibertyInv hwf hinv x y x y
    (by rw [place_stone_size]; exact hb) (by rw [hxy2]; exact hcp0)
  rw [hxy2] at hlib
  exact hlib

/-- Witness for C10: the liberty invariant instantiated at the concrete
reachable state obtained by black playing `(0, 0)` on a fresh `2 × 2` board. -/
theorem liberty_invariant_witness :
    LibertyInv w8 ∧
    ∀ x y : Int, is_valid_move w8 x y = true →
      getCell (place_stone w8 x y).2.board x y = w8.current_player ∧
      (∀ u v : Int, getCell w8.board u v = w8.current_player →
        getCell (place_stone w8 x y).2.board u v = w8.current_player) ∧
      has_any_liberty (place_stone w8 x y).2.size (place_stone w8 x y).2.board x y
        w8.current_player = true :=
  liberty_invariant (Reachable.place 0 0 Reachable.init)

/-! ### The territory flood fill computes the border colours of the region -/

theorem adjSteps_bounds : ∀ d ∈ adjSteps,
    -1 ≤ d.1 ∧ d.1 ≤ 1 ∧ -1 ≤ d.2 ∧ d.2 ≤ 1 := by decide

theorem extLeft_nil (size : Nat) : extLeft size [] = (size + 2) * (size + 2) := by
  unfold extLeft
  rw [List.filter_eq_self.mpr (fun a _ => by simp)]
  unfold extCells
  rw [List.length_flatMap]
  simp only [Function.comp_def, List.length_map, List.length_range]
  rw [List.map_const', List.sum_replicate, List.length_range, smul_eq_mul]

theorem territoryLoop_flag_sound (size : Nat) (board : List (List Nat))
    (st : Int × Int) (hstc : getCell board st.1 st.2 = 0)
    (hbd : ∀ u v : Int, getCell board u v ≤ 2) :
    ∀ fuel stack visited (tb tw : Bool),
      (tb = true → bordersColor size board st 1) →
      (tw = true → bordersColor size board st 2) →
      (∀ c ∈ stack, c = st ∨ ∃ e : Int × Int, reaches size board 0 st e ∧
          inBounds size e.1 e.2 = true ∧ getCell board e.1 e.2 = 0 ∧ adjacentP e c) →
      ((territoryLoop size board fuel stack visited tb tw).1 = true →
        bordersColor size board st 1) ∧
      ((territoryLoop size board fuel stack visited tb tw).2 = true →
        bordersColor size board st 2) := by
  intro fuel
  induction fuel with
  | zero =>
    intro stack visited tb tw htb htw _
    exact ⟨htb, htw⟩
  | succ fuel ih =>
    intro stack visited tb tw htb htw hstack
    cases stack with
    | nil => exact ⟨htb, htw⟩
    | cons c stack =>
      rw [territoryLoop]
      by_cases h1 : c ∈ visited
      · rw [if_pos h1]
        exact ih stack visited tb tw htb htw
          (fun r hr => hstack r (List.mem_cons_of_mem c hr))
      · rw [if_neg h1]
        by_cases h2 : inBounds size c.1 c.2 = true
        · rw [if_pos h2]
          by_cases h3 : getCell board c.1 c.2 = 1
          · rw [if_pos h3]
            have hb1 : bordersColor size board st 1 := by
              rcases hstack c (List.mem_cons_self c stack) with heq | ⟨e, hre, _, _, hadj⟩
              · subst heq
                rw [hstc] at h3
                exact absurd h3 (by decide)
              · obtain ⟨d, hd, hcd⟩ := hadj
                have e1 : c.1 = e.1 + d.1 := by rw [hcd]
                have e2 : c.2 = e.2 + d.2 := by rw [hcd]
                exact ⟨e, hre, d, hd, by rw [← e1, ← e2]; exact h2,
                  by rw [← e1, ← e2]; exact h3⟩
            exact ih stack (c :: visited) true tw (fun _ => hb1) htw
              (fun r hr => hstack r (List.mem_cons_of_mem c hr))
          · rw [if_neg h3]
            by_cases h4 : getCell board c.1 c.2 = 2
            · rw [if_pos h4]
              have hb2 : bordersColor size board st 2 := by
                rcases hstack c (List.mem_cons_self c stack) with heq | ⟨e, hre, _, _, hadj⟩
                · subst heq
                  rw [hstc] at h4
                  exact absurd h4 (by decide)
                · obtain ⟨d, hd, hcd⟩ := hadj
                  have e1 : c.1 = e.1 + d.1 := by rw [hcd]
                  have e2 : c.2 = e.2 + d.2 := by rw [hcd]
                  exact ⟨e, hre, d, hd, by rw [← e1, ← e2]; exact h2,
                    by rw [← e1, ← e2]; exact h4⟩
              exact ih stack (c :: visited) tb true htb (fun _ => hb2)
                (fun r hr => hstack r (List.mem_cons_of_mem c hr))
            · rw [if_neg h4]
              have hc0 : getCell board c.1 c.2 = 0 := by
                have := hbd c.1 c.2
                omega
              have hcr : reaches size board 0 st c := by
                rcases hstack c (List.mem_cons_self c stack) with heq | ⟨e, hre, _, _, hadj⟩
                · subst heq
                  exact Relation.ReflTransGen.refl
                · exact Relation.ReflTransGen.tail hre ⟨hadj, h2, hc0⟩
              refine ih _ (c :: visited) tb tw htb htw ?_
              intro r hr
              rcases List.mem_append.mp hr with hr1 | hr2
              · obtain ⟨d, hd, hrd⟩ := List.mem_map.mp hr1
                exact Or.inr ⟨c, hcr, h2, hc0, ⟨d, hd, hrd.symm⟩⟩
              · exact hstack r (List.mem_cons_of_mem c hr2)
        · rw [if_neg h2]
          exact ih stack (c :: visited) tb tw htb htw
            (fun r hr => hstack r (List.mem_cons_of_mem c hr))

theorem territory_flags_of_closed (size : Nat) (board : List (List Nat))
    (st : Int × Int) (hstb : inBounds size st.1 st.2 = true)
    (hstc : getCell board st.1 st.2 = 0)
    (visited : List (Int × Int)) (tb tw : Bool)
    (hE : st ∈ visited)
    (hC1 : ∀ p ∈ visited, inBounds size p.1 p.2 = true → getCell board p.1 p.2 = 1 →
      tb = true)
    (hC2 : ∀ p ∈ visited, inBounds size p.1 p.2 = true → getCell board p.1 p.2 = 2 →
      tw = true)
    (hD : ∀ p ∈ visited, inBounds size p.1 p.2 = true → getCell board p.1 p.2 = 0 →
      ∀ d ∈ adjSteps, (p.1 + d.1, p.2 + d.2) ∈ visited) :
    (bordersColor size board st 1 → tb = true) ∧
    (bordersColor size board st 2 → tw = true) := by
  have hcl : ∀ q : Int × Int, reaches size board 0 st q → q ∈ visited := by
    intro q hq
    induction hq with
    | refl => exact hE
    | tail h1 hstep ih =>
      obtain ⟨⟨d, hd, hqd⟩, _, _⟩ := hstep
      have hp := (reaches_symm_aux hstb hstc h1).1
      have hmem := hD _ ih hp.1 hp.2 d hd
      rw [hqd]
      exact hmem
  constructor
  · rintro ⟨q, hq, d, hd, hnb, hnc⟩
    have hqv := hcl q hq
    have hqp := (reaches_symm_aux hstb hstc hq).1
    exact hC1 _ (hD q hqv hqp.1 hqp.2 d hd) hnb hnc
  · rintro ⟨q, hq, d, hd, hnb, hnc⟩
    have hqv := hcl q hq
    have hqp := (reaches_symm_aux hstb hstc hq).1
    exact hC2 _ (hD q hqv hqp.1 hqp.2 d hd) hnb hnc

theorem territoryLoop_flag_complete (size : Nat) (board : List (List Nat))
    (st : Int × Int) (hstb : inBounds size st.1 st.2 = true)
    (hstc : getCell board st.1 st.2 = 0)
    (hbd : ∀ u v : Int, getCell board u v ≤ 2) :
    ∀ fuel stack visited (tb tw : Bool),
      5 * extLeft size visited + stack.length ≤ fuel →
      (∀ c ∈ stack, c ∈ extCells size) →
      (st ∈ visited ∨ st ∈ stack) →
      (∀ p ∈ visited, inBounds size p.1 p.2 = true → getCell board p.1 p.2 = 1 →
        tb = true) →
      (∀ p ∈ visited, inBounds size p.1 p.2 = true → getCell board p.1 p.2 = 2 →
        tw = true) →
      (∀ p ∈ visited, inBounds size p.1 p.2 = true → getCell board p.1 p.2 = 0 →
        ∀ d ∈ adjSteps, (p.1 + d.1, p.2 + d.2) ∈ visited ∨
          (p.1 + d.1, p.2 + d.2) ∈ stack) →
      (bordersColor size board st 1 →
        (territoryLoop size board fuel stack visited tb tw).1 = true) ∧
      (bordersColor size board st 2 →
        (territoryLoop size board fuel stack visited tb tw).2 = true) := by
  intro fuel
  induction fuel with
  | zero =>
    intro stack visited tb tw hfuel hG hE hC1 hC2 hD
    cases stack with
    | cons c stack =>
      exfalso
      simp only [List.length_cons] at hfuel
      omega
    | nil =>
      exact territory_flags_of_closed size board st hstb hstc visited tb tw
        (hE.resolve_right (List.not_mem_nil st)) hC1 hC2
        (fun p hp hb hc d hd => (hD p hp hb hc d hd).resolve_right (List.not_mem_nil _))
  | succ fuel ih =>
    intro stack visited tb tw hfuel hG hE hC1 hC2 hD
    cases stack with
    | nil =>
      exact territory_flags_of_closed size board st hstb hstc visited tb tw
        (hE.resolve_right (List.not_mem_nil st)) hC1 hC2
        (fun p hp hb hc d hd => (hD p hp hb hc d hd).resolve_right (List.not_mem_nil _))
    | cons c stack =>
      rw [territoryLoop]
      by_cases h1 : c ∈ visited
      · rw [if_pos h1]
        refine ih stack visited tb tw ?_
          (fun r hr => hG r (List.mem_cons_of_mem c hr)) ?_ hC1 hC2 ?_
        · simp only [List.length_cons] at hfuel
          omega
        · rcases hE with h | h
          · exact Or.inl h
          · rcases List.mem_cons.mp h with heq | h5
            · exact Or.inl (by rw [heq]; exact h1)
            · exact Or.inr h5
        · intro p hp hb hc d hd
          rcases hD p hp hb hc d hd with h | h
          · exact Or.inl h
          · rcases List.mem_cons.mp h with heq | h5
            · exact Or.inl (by rw [heq]; exact h1)
            · exact Or.inr h5
      · rw [if_neg h1]
        have hlt := extLeft_cons_lt (hG c (List.mem_cons_self c stack)) h1
        by_cases h2 : inBounds size c.1 c.2 = true
        · rw [if_pos h2]
          by_cases h3 : getCell board c.1 c.2 = 1
          · rw [if_pos h3]
            refine ih stack (c :: visited) true tw ?_
              (fun r hr => hG r (List.mem_cons_of_mem c hr)) ?_ ?_ ?_ ?_
            · simp only [List.length_cons] at hfuel
              omega
            · rcases hE with h | h
              · exact Or.inl (List.mem_cons_of_mem c h)
              · rcases List.mem_cons.mp h with heq | h5
                · exact Or.inl (by rw [heq]; exact List.mem_cons_self c visited)
                · exact Or.inr h5
            · intro p _ _ _
              rfl
            · intro p hp hb hc
              rcases List.mem_cons.mp hp with heq | h5
              · rw [heq, h3] at hc
                exact absurd hc (by decide)
              · exact hC2 p h5 hb hc
            · intro p hp hb hc d hd
              rcases List.mem_cons.mp hp with heq | h5
              · rw [heq, h3] at hc
                exact absurd hc (by decide)
              · rcases hD p h5 hb hc d hd with h | h
                · exact Or.inl (List.mem_cons_of_mem c h)
                · rcases List.mem_cons.mp h with heq | h6
                  · exact Or.inl (by rw [heq]; exact List.mem_cons_self c visited)
                  · exact Or.inr h6
          · rw [if_neg h3]
            by_cases h4 : getCell board c.1 c.2 = 2
            · rw [if_pos h4]
              refine ih stack (c :: visited) tb true ?_
                (fun r hr => hG r (List.mem_cons_of_mem c hr)) ?_ ?_ ?_ ?_
              · simp only [List.length_cons] at hfuel
                omega
              · rcases hE with h | h
                · exact Or.inl (List.mem_cons_of_mem c h)
                · rcases List.mem_cons.mp h with heq | h5
                  · exact Or.inl (by rw [heq]; exact List.mem_cons_self c visited)
                  · exact Or.inr h5
              · intro p hp hb hc
                rcases List.mem_cons.mp hp with heq | h5
                · rw [heq, h4] at hc
                  exact absurd hc (by decide)
                · exact hC1 p h5 hb hc
              · intro p _ _ _
                rfl
              · intro p hp hb hc d hd
                rcases List.mem_cons.mp hp with heq | h5
                · rw [heq, h4] at hc
                  exact absurd hc (by decide)
                · rcases hD p h5 hb hc d hd with h | h
                  · exact Or.inl (List.mem_cons_of_mem c h)
                  · rcases List.mem_cons.mp h with heq | h6
                    · exact Or.inl (by rw [heq]; exact List.mem_cons_self c visited)
                    · exact Or.inr h6
            · rw [if_neg h4]
              have hc0 : getCell board c.1 c.2 = 0 := by
                have := hbd c.1 c.2
                omega
              refine ih ((adjSteps.map fun d => (c.1 + d.1, c.2 + d.2)) ++ stack)
                (c :: visited) tb tw ?_ ?_ ?_ ?_ ?_ ?_
              · have hplen : (adjSteps.map fun d => (c.1 + d.1, c.2 + d.2)).length = 4 := by
                  simp [adjSteps]
                simp only [List.length_cons] at hfuel
                rw [List.length_append, hplen]
                omega
              · intro r hr
                rcases List.mem_append.mp hr with hr1 | hr2
                · obtain ⟨d, hd, hrd⟩ := List.mem_map.mp hr1
                  have hdb := adjSteps_bounds d hd
                  have h2b := h2
                  simp only [inBounds, Bool.and_eq_true, decide_eq_true_eq] at h2b
                  rw [← hrd]
                  exact mem_extCells.mpr
                    ⟨by show (-1 : Int) ≤ c.1 + d.1; omega,
                     by show c.1 + d.1 ≤ (size : Int); omega,
                     by show (-1 : Int) ≤ c.2 + d.2; omega,
                     by show c.2 + d.2 ≤ (size : Int); omega⟩
                · exact hG r (List.mem_cons_of_mem c hr2)
              · rcases hE with h | h
                · exact Or.inl (List.mem_cons_of_mem c h)
                · rcases List.mem_cons.mp h with heq | h5
                  · exact Or.inl (by rw [heq]; exact List.mem_cons_self c visited)
                  · exact Or.inr (List.mem_append_right _ h5)
              · intro p hp hb hc
                rcases List.mem_cons.mp hp with heq | h5
                · rw [heq, hc0] at hc
                  exact absurd hc (by decide)
                · exact hC1 p h5 hb hc
              · intro p hp hb hc
                rcases List.mem_cons.mp hp with heq | h5
                · rw [heq, hc0] at hc
                  exact absurd hc (by decide)
                · exact hC2 p h5 hb hc
              · intro p hp hb hc d hd
                rcases List.mem_cons.mp hp with heq | h5
                · right
                  refine List.mem_append_left _ ?_
                  refine List.mem_map.mpr ⟨d, hd, ?_⟩
                  rw [heq]
                · rcases hD p h5 hb hc d hd with h | h
                  · exact Or.inl (List.mem_cons_of_mem c h)
                  · rcases List.mem_cons.mp h with heq | h6
                    · exact Or.inl (by rw [heq]; exact List.mem_cons_self c visited)
                    · exact Or.inr (List.mem_append_right _ h6)
        · rw [if_neg h2]
          refine ih stack (c :: visited) tb tw ?_
            (fun r hr => hG r (List.mem_cons_of_mem c hr)) ?_ ?_ ?_ ?_
          · simp only [List.length_cons] at hfuel
            omega
          · rcases hE with h | h
            · exact Or.inl (List.mem_cons_of_mem c h)
            · rcases List.mem_cons.mp h with heq | h5
              · exact absurd (heq ▸ hstb) h2
              · exact Or.inr h5
          · intro p hp hb hc
            rcases List.mem_cons.mp hp with heq | h5
            · exact absurd (heq ▸ hb) h2
            · exact hC1 p h5 hb hc
          · intro p hp hb hc
            rcases List.mem_cons.mp hp with heq | h5
            · exact absurd (heq ▸ hb) h2
            · exact hC2 p h5 hb hc
          · intro p hp hb hc d hd
            rcases List.mem_cons.mp hp with heq | h5
            · exact absurd (heq ▸ hb) h2
            · rcases hD p h5 hb hc d hd with h | h
              · exact Or.inl (List.mem_cons_of_mem c h)
              · rcases List.mem_cons.mp h with heq | h6
                · exact Or.inl (by rw [heq]; exact List.mem_cons_self c visited)
                · exact Or.inr h6

/-- `_get_territory_owner` on an in-bounds empty cell returns `1`/`2` exactly
when the cell's empty region borders only black / only white stones. -/
theorem get_territory_owner_spec {s : GoBoard} (hwf : WF s) {x y : Int}
    (hb : inBounds s.size x y = true) (hc : getCell s.board x y = 0) :
    (get_territory_owner s x y = 1 ↔
      bordersColor s.size s.board (x, y) 1 ∧ ¬ bordersColor s.size s.board (x, y) 2) ∧
    (get_territory_owner s x y = 2 ↔
      bordersColor s.size s.board (x, y) 2 ∧ ¬ bordersColor s.size s.board (x, y) 1) := by
  have hbd : ∀ u v : Int, getCell s.board u v ≤ 2 := getCell_le_two hwf
  have hsound := territoryLoop_flag_sound s.size s.board (x, y) hc hbd
    (territoryFuel s.size) [(x, y)] [] false false
    (fun h => by cases h) (fun h => by cases h)
    (fun c hc2 => Or.inl (List.mem_singleton.mp hc2))
  have hfuel : 5 * extLeft s.size [] +
      ([((x : Int), (y : Int))] : List (Int × Int)).length ≤ territoryFuel s.size := by
    rw [extLeft_nil]
    simp [territoryFuel]
  have hcomp := territoryLoop_flag_complete s.size s.board (x, y) hb hc hbd
    (territoryFuel s.size) [(x, y)] [] false false hfuel
    (fun c hc2 => by rw [List.mem_singleton.mp hc2]; exact inBounds_mem_extCells hb)
    (Or.inr (List.mem_singleton_self _))
    (fun p hp => absurd hp (List.not_mem_nil p))
    (fun p hp => absurd hp (List.not_mem_nil p))
    (fun p hp => absurd hp (List.not_mem_nil p))
  have e1 : (territoryLoop s.size s.board (territoryFuel s.size) [(x, y)] []
      false false).1 = true ↔ bordersColor s.size s.board (x, y) 1 :=
    ⟨hsound.1, hcomp.1⟩
  have e2 : (territoryLoop s.size s.board (territoryFuel s.size) [(x, y)] []
      false false).2 = true ↔ bordersColor s.size s.board (x, y) 2 :=
    ⟨hsound.2, hcomp.2⟩
  have hgoal : get_territory_owner s x y =
      (if (territoryLoop s.size s.board (territoryFuel s.size) [(x, y)] []
            false false).1 &&
          ! (territoryLoop s.size s.board (territoryFuel s.size) [(x, y)] []
            false false).2 then 1
       else if (territoryLoop s.size s.board (territoryFuel s.size) [(x, y)] []
            false false).2 &&
          ! (territoryLoop s.size s.board (territoryFuel s.size) [(x, y)] []
            false false).1 then 2
       else 0) := by
    unfold get_territory_owner
    rw [hc, if_neg (not_not_intro rfl)]
  rw [hgoal]
  cases hT1 : (territoryLoop s.size s.board (territoryFuel s.size) [(x, y)] []
      false false).1 <;>
    cases hT2 : (territoryLoop s.size s.board (territoryFuel s.size) [(x, y)] []
      false false).2 <;>
    rw [hT1] at e1 <;> rw [hT2] at e2 <;> simp at e1 e2 <;> simp [e1, e2]

theorem foldl_scoreStep (s : GoBoard) :
    ∀ (l : List (Int × Int)) (acc : ℚ × ℚ),
      l.foldl (scoreStep s) acc =
        (acc.1 + l.countP (blackPoint s), acc.2 + l.countP (whitePoint s)) := by
  intro l
  induction l with
  | nil =>
    intro acc
    simp
  | cons a l ih =>
    intro acc
    rw [List.foldl_cons, ih]
    have hstep : scoreStep s acc a =
        (acc.1 + if blackPoint s a then (1 : ℚ) else 0,
         acc.2 + if whitePoint s a then (1 : ℚ) else 0) := by
      by_cases h1 : getCell s.board a.1 a.2 = 1
      · have hbp : blackPoint s a = true := by
          unfold blackPoint
          rw [if_pos h1]
        have hwp : whitePoint s a = false := by
          unfold whitePoint
          rw [if_pos h1]
        unfold scoreStep
        rw [if_pos h1, hbp, hwp]
        simp
      · by_cases h2 : getCell s.board a.1 a.2 = 2
        · have hbp : blackPoint s a = false := by
            unfold blackPoint
            rw [if_neg h1, if_pos h2]
          have hwp : whitePoint s a = true := by
            unfold whitePoint
            rw [if_neg h1, if_pos h2]
          unfold scoreStep
          rw [if_neg h1, if_pos h2, hbp, hwp]
          simp
        · have hbp : blackPoint s a =
              decide (get_territory_owner s a.1 a.2 = 1) := by
            unfold blackPoint
            rw [if_neg h1, if_neg h2]
          have hwp : whitePoint s a =
              decide (get_territory_owner s a.1 a.2 = 2) := by
            unfold whitePoint
            rw [if_neg h1, if_neg h2]
          unfold scoreStep
          rw [if_neg h1, if_neg h2, hbp, hwp]
          by_cases h3 : get_territory_owner s a.1 a.2 = 1
          · rw [if_pos h3]
            simp [h3]
          · rw [if_neg h3]
            by_cases h4 : get_territory_owner s a.1 a.2 = 2
            · rw [if_pos h4]
              simp [h3, h4]
            · rw [if_neg h4]
              simp [h3, h4]
    rw [hstep, List.countP_cons, List.countP_cons]
    cases hba : blackPoint s a <;> cases hwa : whitePoint s a <;>
      refine Prod.ext ?_ ?_ <;> simp [hba, hwa] <;> push_cast <;> ring

theorem countP_or_disjoint {α : Type} (p q : α → Bool) :
    ∀ l : List α, (∀ a ∈ l, ¬(p a = true ∧ q a = true)) →
      l.countP (fun a => p a || q a) = l.countP p + l.countP q := by
  intro l
  induction l with
  | nil =>
    intro _
    simp
  | cons a l ih =>
    intro h
    rw [List.countP_cons, List.countP_cons, List.countP_cons,
      ih (fun b hb => h b (List.mem_cons_of_mem a hb))]
    cases hpa : p a
    · cases hqa : q a
      · simp [hpa, hqa]
      · simp [hpa, hqa]
        omega
    · cases hqa : q a
      · simp [hpa, hqa]
        omega
      · exact absurd ⟨hpa, hqa⟩ (h a (List.mem_cons_self a l))

theorem blackPoint_eq {s : GoBoard} (hwf : WF s) (p : Int × Int) :
    blackPoint s p = (decide (getCell s.board p.1 p.2 = 1) ||
      (decide (getCell s.board p.1 p.2 = 0) &&
        decide (get_territory_owner s p.1 p.2 = 1))) := by
  unfold blackPoint
  have hle := getCell_le_two hwf p.1 p.2
  by_cases h1 : getCell s.board p.1 p.2 = 1
  · rw [if_pos h1]
    simp [h1]
  · rw [if_neg h1]
    by_cases h2 : getCell s.board p.1 p.2 = 2
    · rw [if_pos h2]
      simp [h2]
    · rw [if_neg h2]
      have h0 : getCell s.board p.1 p.2 = 0 := by omega
      simp [h0]

theorem whitePoint_eq {s : GoBoard} (hwf : WF s) (p : Int × Int) :
    whitePoint s p = (decide (getCell s.board p.1 p.2 = 2) ||
      (decide (getCell s.board p.1 p.2 = 0) &&
        decide (get_territory_owner s p.1 p.2 = 2))) := by
  unfold whitePoint
  have hle := getCell_le_two hwf p.1 p.2
  by_cases h1 : getCell s.board p.1 p.2 = 1
  · rw [if_pos h1]
    simp [h1]
  · rw [if_neg h1]
    by_cases h2 : getCell s.board p.1 p.2 = 2
    · rw [if_pos h2]
      simp [h2]
    · rw [if_neg h2]
      have h0 : getCell s.board p.1 p.2 = 0 := by omega
      simp [h0]

/-- C5: on a well-formed board `get_score()` returns `(black, white)` with
`black = captured_black + #black stones + #black-territory cells` and
`white = captured_white + #white stones + #white-territory cells + 6.5`, where
an in-bounds empty cell's territory owner is `1`/`2` exactly when its maximal
connected empty region borders stones of only that colour (regions bordering
both colours or no stones own nothing); on a fresh board the score is
`(0, 6.5)`. -/
theorem get_score_spec (s : GoBoard) (hwf : WF s) :
    get_score s =
      ((s.captured_black : ℚ) +
        ((allCells s.size).countP fun p => decide (getCell s.board p.1 p.2 = 1)) +
        ((allCells s.size).countP fun p => decide (getCell s.board p.1 p.2 = 0) &&
          decide (get_territory_owner s p.1 p.2 = 1)),
       (s.captured_white : ℚ) +
        ((allCells s.size).countP fun p => decide (getCell s.board p.1 p.2 = 2)) +
        ((allCells s.size).countP fun p => decide (getCell s.board p.1 p.2 = 0) &&
          decide (get_territory_owner s p.1 p.2 = 2)) + 13 / 2) ∧
    (∀ x y : Int, inBounds s.size x y = true → getCell s.board x y = 0 →
      ((get_territory_owner s x y = 1 ↔
        bordersColor s.size s.board (x, y) 1 ∧
          ¬ bordersColor s.size s.board (x, y) 2) ∧
       (get_territory_owner s x y = 2 ↔
        bordersColor s.size s.board (x, y) 2 ∧
          ¬ bordersColor s.size s.board (x, y) 1))) ∧
    ∀ m : Nat, get_score (GoBoard.init m) = (0, 13 / 2) := by
  refine ⟨?_, fun x y hb hc => get_territory_owner_spec hwf hb hc, ?_⟩
  · unfold get_score
    rw [foldl_scoreStep]
    have hbsplit : (allCells s.size).countP (blackPoint s) =
        (allCells s.size).countP (fun p => decide (getCell s.board p.1 p.2 = 1)) +
        (allCells s.size).countP (fun p => decide (getCell s.board p.1 p.2 = 0) &&
          decide (get_territory_owner s p.1 p.2 = 1)) := by
      rw [List.countP_congr (fun a _ => by rw [blackPoint_eq hwf a])]
      refine countP_or_disjoint _ _ (allCells s.size) ?_
      rintro a _ ⟨h1, h2⟩
      simp only [decide_eq_true_eq, Bool.and_eq_true] at h1 h2
      omega
    have hwsplit : (allCells s.size).countP (whitePoint s) =
        (allCells s.size).countP (fun p => decide (getCell s.board p.1 p.2 = 2)) +
        (allCells s.size).countP (fun p => decide (getCell s.board p.1 p.2 = 0) &&
          decide (get_territory_owner s p.1 p.2 = 2)) := by
      rw [List.countP_congr (fun a _ => by rw [whitePoint_eq hwf a])]
      refine countP_or_disjoint _ _ (allCells s.size) ?_
      rintro a _ ⟨h1, h2⟩
      simp only [decide_eq_true_eq, Bool.and_eq_true] at h1 h2
      omega
    rw [hbsplit, hwsplit]
    refine Prod.ext ?_ ?_ <;> dsimp only <;> push_cast <;> ring
  · intro m
    unfold get_score
    rw [foldl_scoreStep]
    have hwfm := WF_init m
    have hbz : (allCells (GoBoard.init m).size).countP
        (blackPoint (GoBoard.init m)) = 0 := by
      rw [List.countP_eq_zero]
      intro p hp
      have hbp : inBounds (GoBoard.init m).size p.1 p.2 = true := mem_allCells.mp hp
      have hce : getCell (GoBoard.init m).board p.1 p.2 = 0 := getCell_init m p.1 p.2
      have hno1 : ¬ bordersColor (GoBoard.init m).size (GoBoard.init m).board
          (p.1, p.2) 1 := by
        rintro ⟨q, _, d, _, _, hcell⟩
        rw [getCell_init] at hcell
        exact absurd hcell (by decide)
      have hown : get_territory_owner (GoBoard.init m) p.1 p.2 ≠ 1 := by
        intro h
        exact hno1 ((get_territory_owner_spec hwfm hbp hce).1.mp h).1
      unfold blackPoint
      rw [if_neg (by rw [hce]; decide), if_neg (by rw [hce]; decide)]
      simp [hown]
    have hwz : (allCells (GoBoard.init m).size).countP
        (whitePoint (GoBoard.init m)) = 0 := by
      rw [List.countP_eq_zero]
      intro p hp
      have hbp : inBounds (GoBoard.init m).size p.1 p.2 = true := mem_allCells.mp hp
      have hce : getCell (GoBoard.init m).board p.1 p.2 = 0 := getCell_init m p.1 p.2
      have hno2 : ¬ bordersColor (GoBoard.init m).size (GoBoard.init m).board
          (p.1, p.2) 2 := by
        rintro ⟨q, _, d, _, _, hcell⟩
        rw [getCell_init] at hcell
        exact absurd hcell (by decide)
      have hown : get_territory_owner (GoBoard.init m) p.1 p.2 ≠ 2 := by
        intro h
        exact hno2 ((get_territory_owner_spec hwfm hbp hce).2.mp h).1
      unfold whitePoint
      rw [if_neg (by rw [hce]; decide), if_neg (by rw [hce]; decide)]
      simp [hown]
    rw [hbz, hwz]
    norm_num [GoBoard.init]

/-- Witness for C5: `get_score` on the concrete board where black holds `(0, 0)`
of a `2 × 2` grid gives black one stone plus three territory points and white
only the komi. -/
theorem get_score_spec_witness : WF w8 ∧ get_score w8 = (4, 13 / 2) := by
  refine ⟨by unfold WF; decide, ?_⟩
  have h := (get_score_spec w8 (by unfold WF; decide)).1
  rw [h]
  decide

end GoGame
